import Mathlib

/-!
Verification of the Minesweeper grid engine.

The JavaScript source mutates a shared array of cell objects in place.  We
model a cell object by its position in `Board.cells` (object identity equals
array position, because the code always reaches a cell through
`board.cells[row * board.cols + col]`), and every in-place mutation becomes a
functional update of the list at that position.  Coordinates are `Int`
because the JavaScript functions accept arbitrary (possibly negative)
numbers and bounds-check them.  The calls to `Math.random()` are replaced by
explicit oracle parameters (`randFn` for the Fisher-Yates shuffle,
`spawnRoll` / `typeRoll` for power-up placement), following the source's own
use of a uniform random source; every theorem quantifies over all oracles.
-/

set_option maxHeartbeats 1600000

namespace Minesweeper

/-- One cell of the grid, mirroring the object literal built in `create`.
`exploded` and `wrongFlag` are the properties attached later by `gameOver`
and `revealAllMines`; they start out absent (false). -/
structure Cell where
  row : Int
  col : Int
  index : Nat
  isMine : Bool
  isRevealed : Bool
  isFlagged : Bool
  isQuestion : Bool
  adjacentMines : Nat
  powerup : Option String
  exploded : Bool
  wrongFlag : Bool
deriving Repr, DecidableEq

/-- Power-up configuration as consumed by the board module: the `enabled`
flag and the list of configured kind names (`Object.keys(config.types)`).
The spawn probability is absorbed into the `spawnRoll` oracle. -/
structure PowerupConfig where
  enabled : Bool
  types : List String
deriving Repr, DecidableEq

/-- Board state, mirroring the record returned by `create`. -/
structure Board where
  rows : Int
  cols : Int
  mineCount : Int
  cells : List Cell
  minesPlaced : Bool
  powerupConfig : Option PowerupConfig
deriving Repr, DecidableEq

/-- `Board.create`: allocates `rows * cols` cells in row-major order. -/
def create (rows cols mineCount : Int) (powerupConfig : Option PowerupConfig) : Board :=
  { rows := rows
    cols := cols
    mineCount := mineCount
    cells := (List.range rows.toNat).flatMap (fun r =>
      (List.range cols.toNat).map (fun c =>
        let idx : Nat := r * cols.toNat + c
        { row := (r : Int)
          col := (c : Int)
          index := idx
          isMine := false
          isRevealed := false
          isFlagged := false
          isQuestion := false
          adjacentMines := 0
          powerup := none
          exploded := false
          wrongFlag := false }))
    minesPlaced := false
    powerupConfig := powerupConfig }

/-- `Board.getCell`: bounds-checked lookup; `none` plays the role of the
JavaScript `null` / `undefined`. -/
def getCell (b : Board) (row col : Int) : Option Cell :=
  if row < 0 ∨ row ≥ b.rows ∨ col < 0 ∨ col ≥ b.cols then none
  else b.cells[(row * b.cols + col).toNat]?

/-- The eight neighbour offsets, in source order. -/
def directions : List (Int × Int) :=
  [(-1, -1), (-1, 0), (-1, 1), (0, -1), (0, 1), (1, -1), (1, 0), (1, 1)]

/-- `Board.getAdjacentCells`: the in-bounds neighbours, in `directions`
order. -/
def getAdjacentCells (b : Board) (row col : Int) : List Cell :=
  directions.filterMap (fun d => getCell b (row + d.1) (col + d.2))

/-- Positions (array indices) of the in-bounds neighbours; this is the
object-identity view of `getAdjacentCells`, used wherever the source later
mutates the neighbour objects it collected. -/
def adjacentPositions (b : Board) (row col : Int) : List Nat :=
  directions.filterMap (fun d =>
    let r := row + d.1
    let c := col + d.2
    if r < 0 ∨ r ≥ b.rows ∨ c < 0 ∨ c ≥ b.cols then none
    else if (r * b.cols + c).toNat < b.cells.length then some (r * b.cols + c).toNat
    else none)

/-- In-place mutation of the cell object at array position `p`. -/
def modifyCell (b : Board) (p : Nat) (f : Cell → Cell) : Board :=
  match b.cells[p]? with
  | some c => { b with cells := b.cells.set p (f c) }
  | none => b

/-- Result record of `revealCell` and `chordReveal`; the revealed cells are
recorded by array position, `explodedCell`/`powerup` are `none` when the
corresponding key is absent or `null` in the source. -/
structure RevealResult where
  revealed : List Nat
  hitMine : Bool
  explodedCell : Option Nat
  powerup : Option String
deriving Repr, DecidableEq

/-- The empty result `{ revealed: [], hitMine: false, powerup: null }`. -/
def emptyResult : RevealResult :=
  { revealed := [], hitMine := false, explodedCell := none, powerup := none }

/-- Number of cells not yet revealed; the termination measure of the
flood-fill loop. -/
def unrevealedCount (b : Board) : Nat :=
  b.cells.countP (fun c => !c.isRevealed)

theorem countP_set_lt {pr : Cell → Bool} {l : List Cell} {x : Cell} :
    ∀ {p : Nat} {c : Cell}, l[p]? = some c → pr c = true → pr x = false →
      (l.set p x).countP pr < l.countP pr := by
  induction l with
  | nil => intro p c h _ _; simp at h
  | cons hd tl ih =>
    intro p c h hc hx
    cases p with
    | zero =>
      simp only [List.getElem?_cons_zero, Option.some.injEq] at h
      subst h
      rw [List.set_cons_zero, List.countP_cons, List.countP_cons, hc, hx]
      simp
    | succ n =>
      simp only [List.getElem?_cons_succ] at h
      have := ih h hc hx
      simp only [List.set_cons_succ, List.countP_cons]
      omega

/-- The filter deciding which neighbours the cascade pushes onto the work
list (`!adj.isRevealed && !adj.isFlagged && !adj.isMine`). -/
def pushOK (b : Board) (q : Nat) : Bool :=
  match b.cells[q]? with
  | some a => !a.isRevealed && !a.isFlagged && !a.isMine
  | none => false

/-- The worklist loop inside `revealCell` (`while (toReveal.length > 0)`).
The stack holds cell positions, most recent on top (JavaScript pushes at
the end and pops from the end); `acc` is the `revealed` array built so
far. -/
def revealLoop (b : Board) (stack : List Nat) (acc : List Nat) :
    Board × RevealResult :=
  match stack with
  | [] => (b, { revealed := acc, hitMine := false, explodedCell := none, powerup := none })
  | p :: rest =>
    if hp : p < b.cells.length then
      if hrf : b.cells[p].isRevealed = true ∨ b.cells[p].isFlagged = true then
        revealLoop b rest acc
      else
        let bx := modifyCell b p (fun x => { x with isRevealed := true })
        let accx := acc ++ [p]
        if b.cells[p].isMine = true then
          (bx, { revealed := accx, hitMine := true, explodedCell := some p, powerup := none })
        else if b.cells[p].powerup.isSome = true then
          (bx, { revealed := accx, hitMine := false, explodedCell := none,
                 powerup := b.cells[p].powerup })
        else if b.cells[p].adjacentMines = 0 then
          let pushes :=
            (adjacentPositions bx b.cells[p].row b.cells[p].col).filter (pushOK bx)
          revealLoop bx (pushes.reverse ++ rest) accx
        else revealLoop bx rest accx
    else revealLoop b rest acc
termination_by (unrevealedCount b, stack.length)
decreasing_by
  · exact Prod.Lex.right _ (Nat.lt_succ_self _)
  · apply Prod.Lex.left
    simp only [not_or, Bool.not_eq_true] at hrf
    simp only [unrevealedCount, modifyCell, List.getElem?_eq_getElem hp]
    exact countP_set_lt (List.getElem?_eq_getElem hp) (by simp [hrf.1]) (by simp)
  · apply Prod.Lex.left
    simp only [not_or, Bool.not_eq_true] at hrf
    simp only [unrevealedCount, modifyCell, List.getElem?_eq_getElem hp]
    exact countP_set_lt (List.getElem?_eq_getElem hp) (by simp [hrf.1]) (by simp)
  · exact Prod.Lex.right _ (Nat.lt_succ_self _)

/-- `Board.revealCell`: guard, then flood fill starting from the target. -/
def revealCell (b : Board) (row col : Int) : Board × RevealResult :=
  match getCell b row col with
  | none => (b, emptyResult)
  | some c =>
    if c.isRevealed ∨ c.isFlagged then (b, emptyResult)
    else revealLoop b [(row * b.cols + col).toNat] []

/-- Result record of `toggleFlag`. -/
structure FlagResult where
  changed : Bool
  cell : Option Cell
deriving Repr, DecidableEq

/-- `Board.toggleFlag`: the unmarked → flagged → questioned → unmarked
cycle; returns the mutated cell. -/
def toggleFlag (b : Board) (row col : Int) : Board × FlagResult :=
  match getCell b row col with
  | none => (b, { changed := false, cell := none })
  | some c =>
    if c.isRevealed then (b, { changed := false, cell := none })
    else
      let cx :=
        if c.isFlagged then { c with isFlagged := false, isQuestion := true }
        else if c.isQuestion then { c with isQuestion := false }
        else { c with isFlagged := true }
      (modifyCell b (row * b.cols + col).toNat (fun _ => cx),
       { changed := true, cell := some cx })

/-- `Board.checkWin`: true iff every non-mine cell is revealed. -/
def checkWin (b : Board) : Bool :=
  b.cells.all (fun c => c.isMine || c.isRevealed)

/-- `Board.getFlagCount`. -/
def getFlagCount (b : Board) : Nat :=
  (b.cells.filter (fun c => c.isFlagged)).length

/-- One swap `[array[i], array[j]] = [array[j], array[i]]`. -/
def listSwap {α : Type} (l : List α) (i j : Nat) : List α :=
  match l[i]?, l[j]? with
  | some a, some c => (l.set i c).set j a
  | _, _ => l

/-- The Fisher-Yates loop of `shuffleArray`, counting `i` down to `1`;
`randFn i % (i + 1)` stands for `Math.floor(Math.random() * (i + 1))`. -/
def shuffleGo {α : Type} (randFn : Nat → Nat) (l : List α) : Nat → List α
  | 0 => l
  | Nat.succ i => shuffleGo randFn (listSwap l (i + 1) (randFn (i + 1) % (i + 2))) i

/-- `shuffleArray` seeded with an explicit random source. -/
def shuffleArray {α : Type} (randFn : Nat → Nat) (l : List α) : List α :=
  shuffleGo randFn l (l.length - 1)

/-- One step of the adjacent-mine-count pass: recompute `adjacentMines` of
the (non-mine) cell at position `i` from the current board. -/
def adjStep (bb : Board) (i : Nat) : Board :=
  match bb.cells[i]? with
  | none => bb
  | some c =>
    if c.isMine then bb
    else
      let cnt := ((getAdjacentCells bb c.row c.col).filter (fun a => a.isMine)).length
      { bb with cells := bb.cells.set i { c with adjacentMines := cnt } }

/-- The `for (const cell of board.cells)` pass of `placeMines` that fills in
`adjacentMines` for every non-mine cell. -/
def computeAdjacents (b : Board) : Board :=
  (List.range b.cells.length).foldl adjStep b

/-- Setting `isMine = true` at each chosen position. -/
def setMines (b : Board) (ps : List Nat) : Board :=
  ps.foldl (fun bb pos => modifyCell bb pos (fun c => { c with isMine := true })) b

/-- `placePowerups`: each non-mine cell with a positive count rolls
independently (`spawnRoll`) and, on success, receives the kind at index
`typeRoll k % types.length` (`powerupTypes[Math.floor(Math.random() *
powerupTypes.length)]`). -/
def placePowerups (b : Board) (spawnRoll : Nat → Bool) (typeRoll : Nat → Nat) : Board :=
  let types := match b.powerupConfig with
    | some pc => pc.types
    | none => []
  let safeIdxs := (List.range b.cells.length).filter (fun i =>
    match b.cells[i]? with
    | some c => !c.isMine && decide (c.adjacentMines > 0)
    | none => false)
  safeIdxs.enum.foldl (fun bb ki =>
    if spawnRoll ki.1 then
      modifyCell bb ki.2 (fun c => { c with powerup := types[typeRoll ki.1 % types.length]? })
    else bb) b

/-- `Board.placeMines`: safe zone, candidate positions, shuffle, clamp,
place, recount, optional power-ups, and finally `minesPlaced = true`.
The safe zone is kept as `Int` values because `safeRow * cols + safeCol`
can be negative in JavaScript. -/
def placeMines (b : Board) (safeRow safeCol : Int) (randFn : Nat → Nat)
    (spawnRoll : Nat → Bool) (typeRoll : Nat → Nat) : Board :=
  if b.minesPlaced then b else
  let safeZone : List Int :=
    (safeRow * b.cols + safeCol) ::
      (getAdjacentCells b safeRow safeCol).map (fun c => (c.index : Int))
  let validPositions :=
    (List.range b.cells.length).filter (fun (i : Nat) => !safeZone.contains (Int.ofNat i))
  let shuffled := shuffleArray randFn validPositions
  let minePositions := shuffled.take (min b.mineCount (validPositions.length : Int)).toNat
  let b1 := setMines b minePositions
  let b2 := computeAdjacents b1
  let b3 := match b2.powerupConfig with
    | some pc => if pc.enabled then placePowerups b2 spawnRoll typeRoll else b2
    | none => b2
  { b3 with minesPlaced := true }

/-- The `for (const adj of adjacent)` loop of `chordReveal`: call
`revealCell` on each neighbour that is (at its turn) neither revealed nor
flagged, merging results exactly as the source does — `hitMine` sticks,
while `explodedCell` and `powerup` are overwritten by each later hit. -/
def chordLoop (b : Board) (ps : List Nat) (acc : RevealResult) : Board × RevealResult :=
  match ps with
  | [] => (b, acc)
  | p :: rest =>
    if hp : p < b.cells.length then
      if b.cells[p].isRevealed = false ∧ b.cells[p].isFlagged = false then
        let br := revealCell b b.cells[p].row b.cells[p].col
        chordLoop br.1 rest
          { revealed := acc.revealed ++ br.2.revealed
            hitMine := acc.hitMine || br.2.hitMine
            explodedCell := if br.2.hitMine = true then br.2.explodedCell else acc.explodedCell
            powerup := if br.2.powerup.isSome = true then br.2.powerup else acc.powerup }
      else chordLoop b rest acc
    else chordLoop b rest acc

/-- `Board.chordReveal`. -/
def chordReveal (b : Board) (row col : Int) : Board × RevealResult :=
  match getCell b row col with
  | none => (b, emptyResult)
  | some cell =>
    if cell.isRevealed = false ∨ cell.adjacentMines = 0 then (b, emptyResult)
    else
      let flaggedCount := ((getAdjacentCells b row col).filter (fun c => c.isFlagged)).length
      if flaggedCount ≠ cell.adjacentMines then (b, emptyResult)
      else chordLoop b (adjacentPositions b row col) emptyResult

/-- `Board.revealAllMines`: reveal unflagged mines, mark wrong flags;
returns the affected positions. -/
def revealAllMines (b : Board) : Board × List Nat :=
  (List.range b.cells.length).foldl (fun st i =>
    match st.1.cells[i]? with
    | none => st
    | some c =>
      if c.isMine = true ∧ c.isFlagged = false then
        (modifyCell st.1 i (fun x => { x with isRevealed := true }), st.2 ++ [i])
      else if c.isMine = false ∧ c.isFlagged = true then
        (modifyCell st.1 i (fun x => { x with wrongFlag := true }), st.2 ++ [i])
      else st) (b, [])

/-- The `for (const cell of board.cells)` loop in the winning branch of
`gameOver` that flags every remaining mine. -/
def flagAllMines (b : Board) : Board :=
  (List.range b.cells.length).foldl (fun bb i =>
    match bb.cells[i]? with
    | none => bb
    | some c =>
      if c.isMine = true ∧ c.isFlagged = false then
        modifyCell bb i (fun x => { x with isFlagged := true })
      else bb) b

/-- The `gameState` variable of the game controller. -/
inductive GState where
  | idle
  | playing
  | won
  | lost
deriving Repr, DecidableEq

/-- The controller state relevant to the engine: the board, the state
machine, and the power-up module state (`shieldActive`, inventory kinds).
Timer, UI and sound are presentation concerns with no feedback into this
state. -/
structure Session where
  board : Board
  gameState : GState
  shieldActive : Bool
  inventory : List String
deriving Repr, DecidableEq

/-- `PowerUps.collect`: shield auto-activates, everything else joins the
inventory. -/
def collect (s : Session) (kind : String) : Session :=
  if kind = "shield" then { s with shieldActive := true }
  else { s with inventory := s.inventory ++ [kind] }

/-- `gameOver`: set the terminal state; on a win flag all mines, on a loss
mark the exploded cell and reveal all mines. -/
def gameOver (s : Session) (won : Bool) (explodedCell : Option Nat) : Session :=
  if won then
    { s with gameState := GState.won, board := flagAllMines s.board }
  else
    let b1 := match explodedCell with
      | some p => modifyCell s.board p (fun c => { c with exploded := true })
      | none => s.board
    { s with gameState := GState.lost, board := (revealAllMines b1).1 }

/-- `handleReveal` from the game controller: guards, first-click mine
placement, reveal, shield handling on a mine hit, power-up collection, win
check. -/
def handleReveal (s : Session) (row col : Int) (randFn : Nat → Nat)
    (spawnRoll : Nat → Bool) (typeRoll : Nat → Nat) : Session :=
  if s.gameState = GState.won ∨ s.gameState = GState.lost then s else
  match getCell s.board row col with
  | none => s
  | some cell =>
    if cell.isRevealed = true ∨ cell.isFlagged = true then s
    else
      let placed :=
        if s.board.minesPlaced = false then
          (placeMines s.board row col randFn spawnRoll typeRoll, GState.playing)
        else (s.board, s.gameState)
      let br := revealCell placed.1 row col
      if br.2.hitMine = true then
        if s.shieldActive = true then
          { board :=
              match br.2.explodedCell with
              | some p =>
                modifyCell br.1 p (fun c => { c with isRevealed := false, isFlagged := true })
              | none => br.1
            gameState := placed.2
            shieldActive := false
            inventory := s.inventory }
        else
          gameOver { s with board := br.1, gameState := placed.2 } false br.2.explodedCell
      else
        let s2 := { s with board := br.1, gameState := placed.2 }
        let s3 := match br.2.powerup with
          | some k => collect s2 k
          | none => s2
        if checkWin s3.board then gameOver s3 true none else s3

/-! ### Specification-side definitions

The following definitions are written from the specification's wording, to
be compared with the implementation above. -/

/-- Connectivity as the specification describes the cascade: `q` is
reachable when it is a neighbour of a reachable zero-adjacency non-mine
cell and is itself unrevealed, unflagged and not a mine.  The bordering
numbered cells are exactly the reachable cells with a non-zero count. -/
inductive Reach (b : Board) (start : Nat) : Nat → Prop where
  | base : Reach b start start
  | step {p q : Nat} {c a : Cell} :
      Reach b start p →
      b.cells[p]? = some c → c.adjacentMines = 0 → c.isMine = false →
      q ∈ adjacentPositions b c.row c.col →
      b.cells[q]? = some a →
      a.isRevealed = false → a.isFlagged = false → a.isMine = false →
      Reach b start q

/-- Brute-force count of mine neighbours, by coordinates only: for each of
the eight offsets, scan the whole cell list for a mine at that coordinate. -/
def bruteMineCount (b : Board) (row col : Int) : Nat :=
  (directions.filter (fun d =>
    b.cells.any (fun x => x.row == row + d.1 && x.col == col + d.2 && x.isMine))).length

/-- The three marking states of an unrevealed cell. -/
inductive Mark where
  | unmarked
  | flagged
  | questioned
deriving Repr, DecidableEq

/-- The marking state of a cell (reading `isFlagged` before `isQuestion`,
as every consumer in the source does). -/
def markOf (c : Cell) : Mark :=
  if c.isFlagged then Mark.flagged
  else if c.isQuestion then Mark.questioned
  else Mark.unmarked

/-- The flag cycle as the specification words it. -/
def nextMark : Mark → Mark
  | Mark.unmarked => Mark.flagged
  | Mark.flagged => Mark.questioned
  | Mark.questioned => Mark.unmarked

/-- A cell is in exactly one of the three marking states; equivalently,
`isFlagged` and `isQuestion` never hold together. -/
def markConsistent (c : Cell) : Prop :=
  ¬(c.isFlagged = true ∧ c.isQuestion = true)

/-- The per-neighbour outcomes of a chord, in call order: the result of
each `revealCell` call the chord loop performs, on the boards as they
evolve.  Used to state which of the many neighbour results the merged
record surfaces. -/
def chordResults (b : Board) (ps : List Nat) : List RevealResult :=
  match ps with
  | [] => []
  | p :: rest =>
    if hp : p < b.cells.length then
      if b.cells[p].isRevealed = false ∧ b.cells[p].isFlagged = false then
        let br := revealCell b b.cells[p].row b.cells[p].col
        br.2 :: chordResults br.1 rest
      else chordResults b rest
    else chordResults b rest

/-- Keep a previous optional value unless the new one is present — the
merge step repeated overwriting performs. -/
def overwriteO {α : Type} (a o : Option α) : Option α :=
  match o with
  | some x => some x
  | none => a

/-- Last `some` in a list of options (what repeated overwriting computes). -/
def lastSome {α : Type} (l : List (Option α)) : Option α :=
  l.foldl overwriteO none

/-- First `some` in a list of options. -/
def firstSome {α : Type} (l : List (Option α)) : Option α :=
  (l.filterMap id).head?

/-- Field-wise evolution of a cell under the reveal loop: everything is
preserved except that `isRevealed` may switch from false to true. -/
def CellEvol (c cx : Cell) : Prop :=
  cx.row = c.row ∧ cx.col = c.col ∧ cx.index = c.index ∧ cx.isMine = c.isMine ∧
  cx.isFlagged = c.isFlagged ∧ cx.isQuestion = c.isQuestion ∧
  cx.adjacentMines = c.adjacentMines ∧ cx.powerup = c.powerup ∧
  cx.exploded = c.exploded ∧ cx.wrongFlag = c.wrongFlag ∧
  (c.isRevealed = true → cx.isRevealed = true)

/-- Board evolution under the reveal loop: geometry and every cell field
except `isRevealed` are preserved, and revealing is monotone. -/
def BoardEvol (b bx : Board) : Prop :=
  bx.rows = b.rows ∧ bx.cols = b.cols ∧ bx.mineCount = b.mineCount ∧
  bx.minesPlaced = b.minesPlaced ∧ bx.powerupConfig = b.powerupConfig ∧
  bx.cells.length = b.cells.length ∧
  ∀ (p : Nat) (c : Cell), b.cells[p]? = some c →
    ∃ c2 : Cell, bx.cells[p]? = some c2 ∧ CellEvol c c2

/-- The count the source computes for a cell: the number of mines among its
adjacent cells (`adjacent.filter(c => c.isMine).length`). -/
def codeCount (b : Board) (row col : Int) : Nat :=
  ((getAdjacentCells b row col).filter (fun a => a.isMine)).length

/-- Two boards with the same geometry and the same mine layout: equal
dimensions and, position by position, equal `row`, `col` and `isMine`. -/
def MineLayoutEq (b b2 : Board) : Prop :=
  b2.rows = b.rows ∧ b2.cols = b.cols ∧ b2.cells.length = b.cells.length ∧
  ∀ (i : Nat) (c : Cell), b.cells[i]? = some c →
    ∃ c2 : Cell, b2.cells[i]? = some c2 ∧ c2.row = c.row ∧ c2.col = c.col ∧
      c2.isMine = c.isMine

/-- Coordinate faithfulness: the shape every board created by `create`
has — `rows * cols` cells in row-major order, each knowing its own
coordinates and index.  All mutators preserve it. -/
def coordFaithful (b : Board) : Prop :=
  b.cells.length = b.rows.toNat * b.cols.toNat ∧
  ∀ (i : Nat) (c : Cell), b.cells[i]? = some c →
    c.row = ((i / b.cols.toNat : Nat) : Int) ∧
    c.col = ((i % b.cols.toNat : Nat) : Int) ∧ c.index = i

/-! ### Concrete fixtures used by counterexamples and witnesses -/

/-- Shorthand for building concrete cells. -/
def mkCell (r c : Int) (i : Nat) (mine : Bool := false) (rev : Bool := false)
    (flag : Bool := false) (q : Bool := false) (adj : Nat := 0)
    (pw : Option String := none) : Cell :=
  { row := r, col := c, index := i, isMine := mine, isRevealed := rev,
    isFlagged := flag, isQuestion := q, adjacentMines := adj, powerup := pw,
    exploded := false, wrongFlag := false }

/-- A game-consistent 3 by 3 position: mines at (0,0) and (0,2), the
revealed centre reads 2, and the two flags sit on the wrong cells (2,0) and
(2,2), so a chord of the centre proceeds and hits both mines. -/
def chordBoard : Board :=
  { rows := 3, cols := 3, mineCount := 2,
    cells :=
      [ mkCell 0 0 0 true,
        mkCell 0 1 1 false false false false 2,
        mkCell 0 2 2 true,
        mkCell 1 0 3 false false false false 1,
        mkCell 1 1 4 false true false false 2,
        mkCell 1 2 5 false false false false 1,
        mkCell 2 0 6 false false true,
        mkCell 2 1 7,
        mkCell 2 2 8 false false true ],
    minesPlaced := true, powerupConfig := none }

/-- A game-consistent 3 by 3 position: one mine at (2,2) and a power-up on
the numbered border cell (1,2); every other cell has a zero count and the
whole board is unrevealed.  Revealing (0,0) reaches the power-up before the
zero cell (0,2), so the cascade stops early. -/
def cascadeBoard : Board :=
  { rows := 3, cols := 3, mineCount := 1,
    cells :=
      [ mkCell 0 0 0,
        mkCell 0 1 1,
        mkCell 0 2 2,
        mkCell 1 0 3,
        mkCell 1 1 4 false false false false 1,
        mkCell 1 2 5 false false false false 1 (some "shield"),
        mkCell 2 0 6,
        mkCell 2 1 7 false false false false 1,
        mkCell 2 2 8 true ],
    minesPlaced := true, powerupConfig := none }

/-- A 1 by 1 board whose only cell is a flagged mine. -/
def flaggedMineBoard : Board :=
  { rows := 1, cols := 1, mineCount := 1,
    cells := [mkCell 0 0 0 true false true],
    minesPlaced := true, powerupConfig := none }

/-- A 1 by 1 board whose only cell is an unflagged mine. -/
def mineBoard : Board :=
  { rows := 1, cols := 1, mineCount := 1,
    cells := [mkCell 0 0 0 true],
    minesPlaced := true, powerupConfig := none }

/-- A playing session over `mineBoard` with the shield active. -/
def shieldSession : Session :=
  { board := mineBoard, gameState := GState.playing, shieldActive := true,
    inventory := [] }

/-- A playing session over `mineBoard` with no shield. -/
def bareSession : Session :=
  { board := mineBoard, gameState := GState.playing, shieldActive := false,
    inventory := [] }

/-- A 1 by 2 board holding a power-up on the left cell (next to a fictitious
mine count so it is a legal power-up site) and a plain cell. -/
def powerupBoard : Board :=
  { rows := 1, cols := 2, mineCount := 0,
    cells := [mkCell 0 0 0 false false false false 1 (some "freeze"),
              mkCell 0 1 1 false false false false 1],
    minesPlaced := true, powerupConfig := none }

/-- A 1 by 2 board with a revealed zero cell and a flagged cell, used to
exercise the silent no-op paths. -/
def noopBoard : Board :=
  { rows := 1, cols := 2, mineCount := 0,
    cells := [mkCell 0 0 0 false true, mkCell 0 1 1 false false true],
    minesPlaced := true, powerupConfig := none }

/-- A 2 by 2 mine-free board with every cell unrevealed. -/
def blankBoard : Board :=
  { rows := 2, cols := 2, mineCount := 0,
    cells := [mkCell 0 0 0, mkCell 0 1 1, mkCell 1 0 2, mkCell 1 1 3],
    minesPlaced := true, powerupConfig := none }

/-- Constant oracle used to instantiate random sources in witnesses. -/
def zeroFn : Nat → Nat := fun _ => 0

/-- Constant `false` spawn roll: no power-up ever spawns. -/
def noRoll : Nat → Bool := fun _ => false

/-! ### Unfolding lemmas for the reveal loop -/

theorem revealLoop_nil (b : Board) (acc : List Nat) :
    revealLoop b [] acc =
      (b, { revealed := acc, hitMine := false, explodedCell := none, powerup := none }) := by
  rw [revealLoop.eq_def]

theorem revealLoop_oob {b : Board} {p : Nat} (h : ¬p < b.cells.length)
    (rest acc : List Nat) :
    revealLoop b (p :: rest) acc = revealLoop b rest acc := by
  rw [revealLoop.eq_def]
  dsimp only
  rw [dif_neg h]

theorem revealLoop_skip {b : Board} {p : Nat} (hp : p < b.cells.length)
    (hrf : b.cells[p].isRevealed = true ∨ b.cells[p].isFlagged = true)
    (rest acc : List Nat) :
    revealLoop b (p :: rest) acc = revealLoop b rest acc := by
  rw [revealLoop.eq_def]
  dsimp only
  rw [dif_pos hp, dif_pos hrf]

theorem revealLoop_mine {b : Board} {p : Nat} (hp : p < b.cells.length)
    (h1 : b.cells[p].isRevealed = false) (h2 : b.cells[p].isFlagged = false)
    (h3 : b.cells[p].isMine = true) (rest acc : List Nat) :
    revealLoop b (p :: rest) acc =
      (modifyCell b p (fun x => { x with isRevealed := true }),
       { revealed := acc ++ [p], hitMine := true, explodedCell := some p,
         powerup := none }) := by
  rw [revealLoop.eq_def]
  dsimp only
  rw [dif_pos hp, dif_neg (by simp [h1, h2]), if_pos h3]

theorem revealLoop_powerup {b : Board} {p : Nat} (hp : p < b.cells.length)
    (h1 : b.cells[p].isRevealed = false) (h2 : b.cells[p].isFlagged = false)
    (h3 : b.cells[p].isMine = false) (h4 : b.cells[p].powerup.isSome = true)
    (rest acc : List Nat) :
    revealLoop b (p :: rest) acc =
      (modifyCell b p (fun x => { x with isRevealed := true }),
       { revealed := acc ++ [p], hitMine := false, explodedCell := none,
         powerup := b.cells[p].powerup }) := by
  rw [revealLoop.eq_def]
  dsimp only
  rw [dif_pos hp, dif_neg (by simp [h1, h2]), if_neg (by simp [h3]), if_pos h4]

theorem revealLoop_zero {b : Board} {p : Nat} (hp : p < b.cells.length)
    (h1 : b.cells[p].isRevealed = false) (h2 : b.cells[p].isFlagged = false)
    (h3 : b.cells[p].isMine = false) (h4 : b.cells[p].powerup = none)
    (h5 : b.cells[p].adjacentMines = 0) (rest acc : List Nat) :
    revealLoop b (p :: rest) acc =
      revealLoop (modifyCell b p (fun x => { x with isRevealed := true }))
        (((adjacentPositions (modifyCell b p (fun x => { x with isRevealed := true }))
             b.cells[p].row b.cells[p].col).filter
            (pushOK (modifyCell b p (fun x => { x with isRevealed := true })))).reverse ++ rest)
        (acc ++ [p]) := by
  rw [revealLoop.eq_def]
  dsimp only
  rw [dif_pos hp, dif_neg (by simp [h1, h2]), if_neg (by simp [h3]),
    if_neg (by simp [h4]), if_pos h5]

theorem revealLoop_num {b : Board} {p : Nat} (hp : p < b.cells.length)
    (h1 : b.cells[p].isRevealed = false) (h2 : b.cells[p].isFlagged = false)
    (h3 : b.cells[p].isMine = false) (h4 : b.cells[p].powerup = none)
    (h5 : b.cells[p].adjacentMines ≠ 0) (rest acc : List Nat) :
    revealLoop b (p :: rest) acc =
      revealLoop (modifyCell b p (fun x => { x with isRevealed := true })) rest
        (acc ++ [p]) := by
  rw [revealLoop.eq_def]
  dsimp only
  rw [dif_pos hp, dif_neg (by simp [h1, h2]), if_neg (by simp [h3]),
    if_neg (by simp [h4]), if_neg h5]

theorem revealCell_noop_oob {b : Board} {row col : Int}
    (h : getCell b row col = none) :
    revealCell b row col = (b, emptyResult) := by
  simp [revealCell, h]

theorem revealCell_noop_state {b : Board} {row col : Int} {c : Cell}
    (h : getCell b row col = some c)
    (hrf : c.isRevealed = true ∨ c.isFlagged = true) :
    revealCell b row col = (b, emptyResult) := by
  simp only [revealCell, h]
  rw [if_pos hrf]

theorem revealCell_run {b : Board} {row col : Int} {c : Cell}
    (h : getCell b row col = some c)
    (h1 : c.isRevealed = false) (h2 : c.isFlagged = false) :
    revealCell b row col = revealLoop b [(row * b.cols + col).toNat] [] := by
  simp only [revealCell, h]
  rw [if_neg (by simp [h1, h2])]

/-! ### Board evolution under the reveal loop -/

theorem CellEvol_refl (c : Cell) : CellEvol c c :=
  ⟨rfl, rfl, rfl, rfl, rfl, rfl, rfl, rfl, rfl, rfl, fun h => h⟩

theorem CellEvol_trans {a c e : Cell} (h1 : CellEvol a c) (h2 : CellEvol c e) :
    CellEvol a e := by
  obtain ⟨r1, c1, i1, m1, f1, q1, a1, p1, e1, w1, v1⟩ := h1
  obtain ⟨r2, c2, i2, m2, f2, q2, a2, p2, e2, w2, v2⟩ := h2
  exact ⟨r2.trans r1, c2.trans c1, i2.trans i1, m2.trans m1, f2.trans f1, q2.trans q1,
    a2.trans a1, p2.trans p1, e2.trans e1, w2.trans w1, fun h => v2 (v1 h)⟩

theorem BoardEvol_refl (b : Board) : BoardEvol b b :=
  ⟨rfl, rfl, rfl, rfl, rfl, rfl, fun _ c h => ⟨c, h, CellEvol_refl c⟩⟩

theorem BoardEvol_trans {a c e : Board} (h1 : BoardEvol a c) (h2 : BoardEvol c e) :
    BoardEvol a e := by
  obtain ⟨r1, c1, m1, p1, pc1, l1, f1⟩ := h1
  obtain ⟨r2, c2, m2, p2, pc2, l2, f2⟩ := h2
  refine ⟨r2.trans r1, c2.trans c1, m2.trans m1, p2.trans p1, pc2.trans pc1,
    l2.trans l1, ?_⟩
  intro p cc h
  obtain ⟨c2c, hc2, he1⟩ := f1 p cc h
  obtain ⟨c3c, hc3, he2⟩ := f2 p c2c hc2
  exact ⟨c3c, hc3, CellEvol_trans he1 he2⟩

theorem modifyCell_reveal_evol (b : Board) (p : Nat) :
    BoardEvol b (modifyCell b p (fun x => { x with isRevealed := true })) := by
  unfold modifyCell
  rcases h : b.cells[p]? with _ | c
  · exact BoardEvol_refl b
  · have hp : p < b.cells.length := by
      by_contra hcon
      rw [List.getElem?_eq_none (Nat.le_of_not_lt hcon)] at h
      cases h
    refine ⟨rfl, rfl, rfl, rfl, rfl, by simp, ?_⟩
    intro q cq hq
    by_cases hqp : q = p
    · subst hqp
      rw [h] at hq
      injection hq with hq
      subst hq
      exact ⟨_, List.getElem?_set_eq_of_lt _ hp,
        rfl, rfl, rfl, rfl, rfl, rfl, rfl, rfl, rfl, rfl, fun _ => rfl⟩
    · refine ⟨cq, ?_, CellEvol_refl cq⟩
      rw [List.getElem?_set_ne (fun hx => hqp hx.symm)]
      exact hq

theorem revealLoop_evol (b : Board) (stack acc : List Nat) :
    BoardEvol b (revealLoop b stack acc).1 := by
  induction b, stack, acc using revealLoop.induct with
  | case1 b acc =>
    rw [revealLoop_nil]
    exact BoardEvol_refl b
  | case2 b acc p rest hp hrf ih =>
    rw [revealLoop_skip hp hrf]
    exact ih
  | case3 b acc p rest hp hrf hm =>
    simp only [not_or, Bool.not_eq_true] at hrf
    rw [revealLoop_mine hp hrf.1 hrf.2 hm]
    exact modifyCell_reveal_evol b p
  | case4 b acc p rest hp hrf hm hpw =>
    simp only [not_or, Bool.not_eq_true] at hrf
    rw [revealLoop_powerup hp hrf.1 hrf.2 (by simpa using hm) hpw]
    exact modifyCell_reveal_evol b p
  | case5 b acc p rest hp hrf bx accx hm hpw hz pushes ih =>
    simp only [not_or, Bool.not_eq_true] at hrf
    rw [revealLoop_zero hp hrf.1 hrf.2 (by simpa using hm)
      (by simpa using hpw) hz]
    exact BoardEvol_trans (modifyCell_reveal_evol b p) ih
  | case6 b acc p rest hp hrf bx accx hm hpw hz ih =>
    simp only [not_or, Bool.not_eq_true] at hrf
    rw [revealLoop_num hp hrf.1 hrf.2 (by simpa using hm) (by simpa using hpw) hz]
    exact BoardEvol_trans (modifyCell_reveal_evol b p) ih
  | case7 b acc p rest hp ih =>
    rw [revealLoop_oob hp]
    exact ih

/-! ### Claim C1 -/

/-- Claim C1, corrected.  `create` performs no dimension validation at all:
with `rows ≤ 0` or `cols ≤ 0` it simply returns a degenerate `Board` whose
cell list is empty (the construction loops run zero times), carrying the
requested dimensions unchanged; no error of any kind is signalled. -/
theorem claim_C1 (rows cols mineCount : Int) (pc : Option PowerupConfig)
    (h : rows ≤ 0 ∨ cols ≤ 0) :
    (create rows cols mineCount pc).cells = [] ∧
    (create rows cols mineCount pc).rows = rows ∧
    (create rows cols mineCount pc).cols = cols ∧
    (create rows cols mineCount pc).mineCount = mineCount ∧
    (create rows cols mineCount pc).minesPlaced = false := by
  refine ⟨?_, rfl, rfl, rfl, rfl⟩
  rcases h with h | h
  · simp [create, Int.toNat_of_nonpos h]
  · simp [create, Int.toNat_of_nonpos h]

/-- Witness for C1 at `rows = 0`, `cols = 5`. -/
theorem claim_C1_witness :
    (0 : Int) ≤ 0 ∧ (create 0 5 10 none).cells = [] ∧ (create 0 5 10 none).rows = 0 :=
  ⟨le_refl 0, (claim_C1 0 5 10 none (Or.inl (le_refl 0))).1,
    (claim_C1 0 5 10 none (Or.inl (le_refl 0))).2.1⟩

/-- Counterexample to C1 as stated: calling `create` with `rows = 0` does
not fail — there is no `InvalidDimensions` (or any other) failure path in
the module — it returns an ordinary `Board` value, shown here in full. -/
theorem claim_C1_counterexample :
    create 0 5 10 none =
      { rows := 0, cols := 5, mineCount := 10, cells := [], minesPlaced := false,
        powerupConfig := none } := by
  decide

/-! ### Claim C9 -/

/-- Claim C9, confirmed.  All three operations are total functions in this
embedding (nothing throws), and on every invalid input — out-of-range
coordinates for any of them, an already revealed or flagged target for
`revealCell`, a revealed target for `toggleFlag`, and an unqualified target
for `chordReveal` (not revealed, zero count, or flag count mismatch) — the
operation returns the empty/`false` result together with the board
unchanged. -/
theorem claim_C9 (b : Board) (row col : Int) :
    (getCell b row col = none →
      revealCell b row col = (b, emptyResult) ∧
      chordReveal b row col = (b, emptyResult) ∧
      toggleFlag b row col = (b, { changed := false, cell := none })) ∧
    (∀ c : Cell, getCell b row col = some c →
      ((c.isRevealed = true ∨ c.isFlagged = true) →
        revealCell b row col = (b, emptyResult)) ∧
      (c.isRevealed = true →
        toggleFlag b row col = (b, { changed := false, cell := none })) ∧
      ((c.isRevealed = false ∨ c.adjacentMines = 0 ∨
          ((getAdjacentCells b row col).filter (fun x => x.isFlagged)).length ≠
            c.adjacentMines) →
        chordReveal b row col = (b, emptyResult))) := by
  constructor
  · intro h
    exact ⟨by simp [revealCell, h], by simp [chordReveal, h], by simp [toggleFlag, h]⟩
  · intro c h
    refine ⟨?_, ?_, ?_⟩
    · intro hrf
      exact revealCell_noop_state h hrf
    · intro hr
      simp [toggleFlag, h, hr]
    · intro hbad
      simp only [chordReveal, h]
      by_cases hg : c.isRevealed = false ∨ c.adjacentMines = 0
      · rw [if_pos hg]
      · rw [if_neg hg]
        push_neg at hg
        have hmm : ((getAdjacentCells b row col).filter (fun x => x.isFlagged)).length ≠
            c.adjacentMines := by
          rcases hbad with h1 | h2 | h3
          · exact absurd h1 hg.1
          · exact absurd h2 hg.2
          · exact h3
        rw [if_pos hmm]

/-- Witness for C9: out-of-range, revealed, flagged and unqualified-chord
inputs on a concrete board, all returning empty results with the board
intact. -/
theorem claim_C9_witness :
    revealCell noopBoard 0 5 = (noopBoard, emptyResult) ∧
    chordReveal noopBoard 0 5 = (noopBoard, emptyResult) ∧
    toggleFlag noopBoard 0 5 = (noopBoard, { changed := false, cell := none }) ∧
    revealCell noopBoard 0 0 = (noopBoard, emptyResult) ∧
    revealCell noopBoard 0 1 = (noopBoard, emptyResult) ∧
    toggleFlag noopBoard 0 0 = (noopBoard, { changed := false, cell := none }) ∧
    chordReveal noopBoard 0 0 = (noopBoard, emptyResult) := by
  have hoob := (claim_C9 noopBoard 0 5).1 (by decide)
  have h0 := (claim_C9 noopBoard 0 0).2 (mkCell 0 0 0 false true) (by decide)
  have h1 := (claim_C9 noopBoard 0 1).2 (mkCell 0 1 1 false false true) (by decide)
  refine ⟨hoob.1, hoob.2.1, hoob.2.2, ?_, ?_, ?_, ?_⟩
  · exact h0.1 (Or.inl (by decide))
  · exact h1.1 (Or.inr (by decide))
  · exact h0.2.1 (by decide)
  · exact h0.2.2 (Or.inr (Or.inl (by decide)))

/-! ### Claim C8 -/

theorem toggleFlag_all_markConsistent {b : Board}
    (hall : ∀ x ∈ b.cells, markConsistent x) (row col : Int) :
    ∀ x ∈ (toggleFlag b row col).1.cells, markConsistent x := by
  intro x hx
  rcases hgc : getCell b row col with _ | c
  · simp only [toggleFlag, hgc] at hx
    exact hall x hx
  · by_cases hr : c.isRevealed = true
    · simp only [toggleFlag, hgc, hr, if_true] at hx
      exact hall x hx
    · simp only [toggleFlag, hgc, hr, Bool.false_eq_true, if_false, modifyCell] at hx
      rcases hcc : b.cells[(row * b.cols + col).toNat]? with _ | c2
      · rw [hcc] at hx
        exact hall x hx
      · rw [hcc] at hx
        dsimp only at hx
        rcases List.mem_or_eq_of_mem_set hx with hmem | rfl
        · exact hall x hmem
        · by_cases hf : c.isFlagged = true <;> by_cases hq : c.isQuestion = true <;>
            simp [markConsistent, hf, hq]

theorem toggleSeq_markConsistent (toggles : List (Int × Int)) :
    ∀ b : Board, (∀ x ∈ b.cells, markConsistent x) →
      ∀ x ∈ (toggles.foldl (fun bb rc => (toggleFlag bb rc.1 rc.2).1) b).cells,
        markConsistent x := by
  induction toggles with
  | nil => intro b hall; exact hall
  | cons t rest ih =>
    intro b hall
    exact ih _ (toggleFlag_all_markConsistent hall t.1 t.2)

theorem create_markConsistent (rows cols mc : Int) (pcfg : Option PowerupConfig) :
    ∀ x ∈ (create rows cols mc pcfg).cells, markConsistent x := by
  intro x hx
  simp only [create, List.mem_flatMap, List.mem_map] at hx
  obtain ⟨r, -, c, -, rfl⟩ := hx
  simp [markConsistent]

/-- Claim C8, confirmed.  On an unrevealed in-bounds cell `toggleFlag`
advances the mark along the cycle unmarked → flagged → questioned →
unmarked, returns the mutated cell, touches no other field and no other
cell; the mutated cell never has `isFlagged` and `isQuestion` together, the
property is preserved across arbitrary call sequences starting from a fresh
board (so every unrevealed cell is always in exactly one of the three
states), and the call is a strict no-op on revealed or out-of-bounds
targets. -/
theorem claim_C8 (b : Board) (row col : Int) :
    (∀ c : Cell, getCell b row col = some c → c.isRevealed = false →
      ∃ cx : Cell,
        toggleFlag b row col =
          (modifyCell b (row * b.cols + col).toNat (fun _ => cx),
           { changed := true, cell := some cx }) ∧
        markOf cx = nextMark (markOf c) ∧ markConsistent cx ∧
        cx.isRevealed = c.isRevealed ∧ cx.isMine = c.isMine ∧ cx.row = c.row ∧
        cx.col = c.col ∧ cx.index = c.index ∧ cx.adjacentMines = c.adjacentMines ∧
        cx.powerup = c.powerup) ∧
    ((∀ x ∈ b.cells, markConsistent x) →
      ∀ x ∈ (toggleFlag b row col).1.cells, markConsistent x) ∧
    (∀ (toggles : List (Int × Int)) (rows cols mc : Int) (pcfg : Option PowerupConfig),
      ∀ x ∈ (toggles.foldl (fun bb rc => (toggleFlag bb rc.1 rc.2).1)
               (create rows cols mc pcfg)).cells, markConsistent x) ∧
    (getCell b row col = none →
      toggleFlag b row col = (b, { changed := false, cell := none })) ∧
    (∀ c : Cell, getCell b row col = some c → c.isRevealed = true →
      toggleFlag b row col = (b, { changed := false, cell := none })) := by
  refine ⟨?_, ?_, ?_, ?_, ?_⟩
  · intro c h hr
    by_cases hf : c.isFlagged = true
    · refine ⟨{ c with isFlagged := false, isQuestion := true }, ?_, ?_, ?_,
        rfl, rfl, rfl, rfl, rfl, rfl, rfl⟩
      · simp [toggleFlag, h, hr, hf]
      · simp [markOf, nextMark, hf]
      · simp [markConsistent]
    · by_cases hq : c.isQuestion = true
      · refine ⟨{ c with isQuestion := false }, ?_, ?_, ?_,
          rfl, rfl, rfl, rfl, rfl, rfl, rfl⟩
        · simp [toggleFlag, h, hr, hf, hq]
        · simp [markOf, nextMark, hf, hq]
        · simp [markConsistent]
      · refine ⟨{ c with isFlagged := true }, ?_, ?_, ?_,
          rfl, rfl, rfl, rfl, rfl, rfl, rfl⟩
        · simp [toggleFlag, h, hr, hf, hq]
        · simp [markOf, nextMark, hf, hq]
        · simp [markConsistent, hq]
  · intro hall
    exact toggleFlag_all_markConsistent hall row col
  · intro toggles rows cols mc pcfg
    exact toggleSeq_markConsistent toggles _ (create_markConsistent rows cols mc pcfg)
  · intro h
    simp [toggleFlag, h]
  · intro c h hr
    simp [toggleFlag, h, hr]

/-- Witness for C8: one real toggle on a fresh cell, the invariant on a
concrete board, and the two no-op paths. -/
theorem claim_C8_witness :
    (toggleFlag blankBoard 0 0).2.changed = true ∧
    (∀ x ∈ (toggleFlag noopBoard 0 1).1.cells, markConsistent x) ∧
    toggleFlag noopBoard 0 5 = (noopBoard, { changed := false, cell := none }) ∧
    toggleFlag noopBoard 0 0 = (noopBoard, { changed := false, cell := none }) := by
  obtain ⟨cx, hcx, -⟩ :=
    (claim_C8 blankBoard 0 0).1 (mkCell 0 0 0) (by decide) (by decide)
  refine ⟨by rw [hcx], ?_, ?_, ?_⟩
  · exact (claim_C8 noopBoard 0 1).2.1 (by simp only [markConsistent]; decide)
  · exact (claim_C8 noopBoard 0 5).2.2.2.1 (by decide)
  · exact (claim_C8 noopBoard 0 0).2.2.2.2 (mkCell 0 0 0 false true) (by decide) (by decide)

/-! ### Cell lookup helpers -/

theorem getElem?_some_lt {α : Type} {l : List α} {p : Nat} {c : α}
    (h : l[p]? = some c) : p < l.length := by
  by_contra hcon
  rw [List.getElem?_eq_none (Nat.le_of_not_lt hcon)] at h
  cases h

theorem mem_of_getElem?_some {α : Type} {l : List α} {i : Nat} {a : α}
    (h : l[i]? = some a) : a ∈ l := by
  have hlt := getElem?_some_lt h
  have hga : l[i] = a := by
    rw [List.getElem?_eq_getElem hlt] at h
    injection h
  rw [← hga]
  exact List.getElem_mem hlt

theorem modifyCell_getElem?_self {b : Board} {p : Nat} {c : Cell}
    (h : b.cells[p]? = some c) (f : Cell → Cell) :
    (modifyCell b p f).cells[p]? = some (f c) := by
  unfold modifyCell
  rw [h]
  exact List.getElem?_set_eq_of_lt _ (getElem?_some_lt h)

theorem modifyCell_getElem?_other {b : Board} {p q : Nat} (hne : q ≠ p)
    (f : Cell → Cell) : (modifyCell b p f).cells[q]? = b.cells[q]? := by
  unfold modifyCell
  rcases h : b.cells[p]? with _ | c
  · rfl
  · exact List.getElem?_set_ne (fun hx => hne hx.symm)

theorem pushOK_spec {b : Board} {q : Nat} (h : pushOK b q = true) :
    ∃ a : Cell, b.cells[q]? = some a ∧ a.isRevealed = false ∧ a.isFlagged = false ∧
      a.isMine = false := by
  unfold pushOK at h
  rcases hq : b.cells[q]? with _ | a
  · rw [hq] at h
    cases h
  · rw [hq] at h
    simp only [Bool.and_eq_true, Bool.not_eq_true'] at h
    exact ⟨a, rfl, h.1.1, h.1.2, h.2⟩

/-! ### What the reveal loop reveals -/

theorem revealLoop_revealed_char (b : Board) (stack acc : List Nat) :
    ∀ q : Nat, q ∈ (revealLoop b stack acc).2.revealed ↔
      q ∈ acc ∨ (∃ c c2 : Cell, b.cells[q]? = some c ∧
        (revealLoop b stack acc).1.cells[q]? = some c2 ∧
        c.isRevealed = false ∧ c2.isRevealed = true) := by
  induction b, stack, acc using revealLoop.induct with
  | case1 b acc =>
    intro q
    rw [revealLoop_nil]
    constructor
    · exact fun h => Or.inl h
    · rintro (h | ⟨c, c2, h1, h2, h3, h4⟩)
      · exact h
      · rw [h1] at h2
        injection h2 with h2
        subst h2
        rw [h3] at h4
        cases h4
  | case2 b acc p rest hp hrf ih =>
    rw [revealLoop_skip hp hrf]
    exact ih
  | case3 b acc p rest hp hrf hm =>
    simp only [not_or, Bool.not_eq_true] at hrf
    rw [revealLoop_mine hp hrf.1 hrf.2 hm]
    intro q
    have hpe : b.cells[p]? = some b.cells[p] := List.getElem?_eq_getElem hp
    constructor
    · intro hmem
      rcases List.mem_append.mp hmem with h | h
      · exact Or.inl h
      · have hqp : q = p := by simpa using h
        subst hqp
        exact Or.inr ⟨b.cells[q], _, hpe, modifyCell_getElem?_self hpe _, hrf.1, rfl⟩
    · rintro (h | ⟨c, c2, h1, h2, h3, h4⟩)
      · exact List.mem_append_left _ h
      · by_cases hqp : q = p
        · subst hqp
          simp
        · rw [modifyCell_getElem?_other hqp] at h2
          rw [h1] at h2
          injection h2 with h2
          subst h2
          rw [h3] at h4
          cases h4
  | case4 b acc p rest hp hrf hm hpw =>
    simp only [not_or, Bool.not_eq_true] at hrf
    rw [revealLoop_powerup hp hrf.1 hrf.2 (by simpa using hm) hpw]
    intro q
    have hpe : b.cells[p]? = some b.cells[p] := List.getElem?_eq_getElem hp
    constructor
    · intro hmem
      rcases List.mem_append.mp hmem with h | h
      · exact Or.inl h
      · have hqp : q = p := by simpa using h
        subst hqp
        exact Or.inr ⟨b.cells[q], _, hpe, modifyCell_getElem?_self hpe _, hrf.1, rfl⟩
    · rintro (h | ⟨c, c2, h1, h2, h3, h4⟩)
      · exact List.mem_append_left _ h
      · by_cases hqp : q = p
        · subst hqp
          simp
        · rw [modifyCell_getElem?_other hqp] at h2
          rw [h1] at h2
          injection h2 with h2
          subst h2
          rw [h3] at h4
          cases h4
  | case5 b acc p rest hp hrf bx accx hm hpw hz pushes ih =>
    simp only [not_or, Bool.not_eq_true] at hrf
    rw [revealLoop_zero hp hrf.1 hrf.2 (by simpa using hm) (by simpa using hpw) hz]
    intro q
    have hbxdef : bx = modifyCell b p (fun x => { x with isRevealed := true }) := rfl
    have hpe : b.cells[p]? = some b.cells[p] := List.getElem?_eq_getElem hp
    have hbx : bx.cells[p]? = some { b.cells[p] with isRevealed := true } :=
      modifyCell_getElem?_self hpe _
    have hevol := revealLoop_evol bx (pushes.reverse ++ rest) accx
    constructor
    · intro hmem
      rcases (ih q).mp hmem with h | ⟨c, c2, h1, h2, h3, h4⟩
      · rcases List.mem_append.mp h with h | h
        · exact Or.inl h
        · have hqp : q = p := by simpa using h
          subst hqp
          obtain ⟨c2, hc2, hev⟩ := hevol.2.2.2.2.2.2 q _ hbx
          exact Or.inr ⟨b.cells[q], c2, hpe, hc2, hrf.1,
            hev.2.2.2.2.2.2.2.2.2.2 rfl⟩
      · by_cases hqp : q = p
        · subst hqp
          rw [hbx] at h1
          injection h1 with h1
          subst h1
          simp at h3
        · rw [hbxdef, modifyCell_getElem?_other hqp] at h1
          exact Or.inr ⟨c, c2, h1, h2, h3, h4⟩
    · rintro (h | ⟨c, c2, h1, h2, h3, h4⟩)
      · exact (ih q).mpr (Or.inl (List.mem_append_left _ h))
      · by_cases hqp : q = p
        · subst hqp
          exact (ih q).mpr (Or.inl (List.mem_append_right _ (by simp)))
        · refine (ih q).mpr (Or.inr ⟨c, c2, ?_, h2, h3, h4⟩)
          rw [hbxdef, modifyCell_getElem?_other hqp]
          exact h1
  | case6 b acc p rest hp hrf bx accx hm hpw hz ih =>
    simp only [not_or, Bool.not_eq_true] at hrf
    rw [revealLoop_num hp hrf.1 hrf.2 (by simpa using hm) (by simpa using hpw) hz]
    intro q
    have hbxdef : bx = modifyCell b p (fun x => { x with isRevealed := true }) := rfl
    have hpe : b.cells[p]? = some b.cells[p] := List.getElem?_eq_getElem hp
    have hbx : bx.cells[p]? = some { b.cells[p] with isRevealed := true } :=
      modifyCell_getElem?_self hpe _
    have hevol := revealLoop_evol bx rest accx
    constructor
    · intro hmem
      rcases (ih q).mp hmem with h | ⟨c, c2, h1, h2, h3, h4⟩
      · rcases List.mem_append.mp h with h | h
        · exact Or.inl h
        · have hqp : q = p := by simpa using h
          subst hqp
          obtain ⟨c2, hc2, hev⟩ := hevol.2.2.2.2.2.2 q _ hbx
          exact Or.inr ⟨b.cells[q], c2, hpe, hc2, hrf.1,
            hev.2.2.2.2.2.2.2.2.2.2 rfl⟩
      · by_cases hqp : q = p
        · subst hqp
          rw [hbx] at h1
          injection h1 with h1
          subst h1
          simp at h3
        · rw [hbxdef, modifyCell_getElem?_other hqp] at h1
          exact Or.inr ⟨c, c2, h1, h2, h3, h4⟩
    · rintro (h | ⟨c, c2, h1, h2, h3, h4⟩)
      · exact (ih q).mpr (Or.inl (List.mem_append_left _ h))
      · by_cases hqp : q = p
        · subst hqp
          exact (ih q).mpr (Or.inl (List.mem_append_right _ (by simp)))
        · refine (ih q).mpr (Or.inr ⟨c, c2, ?_, h2, h3, h4⟩)
          rw [hbxdef, modifyCell_getElem?_other hqp]
          exact h1
  | case7 b acc p rest hp ih =>
    rw [revealLoop_oob hp]
    exact ih

theorem revealLoop_revealed_nodup (b : Board) (stack acc : List Nat) :
    (∀ q ∈ acc, ∃ c : Cell, b.cells[q]? = some c ∧ c.isRevealed = true) → acc.Nodup →
      (revealLoop b stack acc).2.revealed.Nodup := by
  induction b, stack, acc using revealLoop.induct with
  | case1 b acc =>
    intro _ hnd
    rw [revealLoop_nil]
    exact hnd
  | case2 b acc p rest hp hrf ih =>
    rw [revealLoop_skip hp hrf]
    exact ih
  | case3 b acc p rest hp hrf hm =>
    simp only [not_or, Bool.not_eq_true] at hrf
    rw [revealLoop_mine hp hrf.1 hrf.2 hm]
    intro hacc hnd
    rw [List.nodup_append]
    refine ⟨hnd, List.nodup_singleton p, ?_⟩
    intro q hq hq2
    have hqp : q = p := by simpa using hq2
    subst hqp
    obtain ⟨c, hc, hcr⟩ := hacc q hq
    rw [List.getElem?_eq_getElem hp] at hc
    injection hc with hc
    rw [hc] at hrf
    rw [hrf.1] at hcr
    cases hcr
  | case4 b acc p rest hp hrf hm hpw =>
    simp only [not_or, Bool.not_eq_true] at hrf
    rw [revealLoop_powerup hp hrf.1 hrf.2 (by simpa using hm) hpw]
    intro hacc hnd
    rw [List.nodup_append]
    refine ⟨hnd, List.nodup_singleton p, ?_⟩
    intro q hq hq2
    have hqp : q = p := by simpa using hq2
    subst hqp
    obtain ⟨c, hc, hcr⟩ := hacc q hq
    rw [List.getElem?_eq_getElem hp] at hc
    injection hc with hc
    rw [hc] at hrf
    rw [hrf.1] at hcr
    cases hcr
  | case5 b acc p rest hp hrf bx accx hm hpw hz pushes ih =>
    simp only [not_or, Bool.not_eq_true] at hrf
    rw [revealLoop_zero hp hrf.1 hrf.2 (by simpa using hm) (by simpa using hpw) hz]
    intro hacc hnd
    have hbxdef : bx = modifyCell b p (fun x => { x with isRevealed := true }) := rfl
    have hpe : b.cells[p]? = some b.cells[p] := List.getElem?_eq_getElem hp
    refine ih ?_ ?_
    · intro q hq
      rcases List.mem_append.mp hq with h | h
      · obtain ⟨c, hc, hcr⟩ := hacc q h
        by_cases hqp : q = p
        · subst hqp
          rw [hpe] at hc
          injection hc with hc
          rw [hc] at hrf
          rw [hrf.1] at hcr
          cases hcr
        · refine ⟨c, ?_, hcr⟩
          rw [hbxdef, modifyCell_getElem?_other hqp]
          exact hc
      · have hqp : q = p := by simpa using h
        subst hqp
        exact ⟨_, modifyCell_getElem?_self hpe _, rfl⟩
    · rw [List.nodup_append]
      refine ⟨hnd, List.nodup_singleton p, ?_⟩
      intro q hq hq2
      have hqp : q = p := by simpa using hq2
      subst hqp
      obtain ⟨c, hc, hcr⟩ := hacc q hq
      rw [hpe] at hc
      injection hc with hc
      rw [hc] at hrf
      rw [hrf.1] at hcr
      cases hcr
  | case6 b acc p rest hp hrf bx accx hm hpw hz ih =>
    simp only [not_or, Bool.not_eq_true] at hrf
    rw [revealLoop_num hp hrf.1 hrf.2 (by simpa using hm) (by simpa using hpw) hz]
    intro hacc hnd
    have hbxdef : bx = modifyCell b p (fun x => { x with isRevealed := true }) := rfl
    have hpe : b.cells[p]? = some b.cells[p] := List.getElem?_eq_getElem hp
    refine ih ?_ ?_
    · intro q hq
      rcases List.mem_append.mp hq with h | h
      · obtain ⟨c, hc, hcr⟩ := hacc q h
        by_cases hqp : q = p
        · subst hqp
          rw [hpe] at hc
          injection hc with hc
          rw [hc] at hrf
          rw [hrf.1] at hcr
          cases hcr
        · refine ⟨c, ?_, hcr⟩
          rw [hbxdef, modifyCell_getElem?_other hqp]
          exact hc
      · have hqp : q = p := by simpa using h
        subst hqp
        exact ⟨_, modifyCell_getElem?_self hpe _, rfl⟩
    · rw [List.nodup_append]
      refine ⟨hnd, List.nodup_singleton p, ?_⟩
      intro q hq hq2
      have hqp : q = p := by simpa using hq2
      subst hqp
      obtain ⟨c, hc, hcr⟩ := hacc q hq
      rw [hpe] at hc
      injection hc with hc
      rw [hc] at hrf
      rw [hrf.1] at hcr
      cases hcr
  | case7 b acc p rest hp ih =>
    rw [revealLoop_oob hp]
    exact ih

theorem getLast?_concat_eq {α : Type} (l : List α) (a : α) :
    (l ++ [a]).getLast? = some a := by
  rw [List.getLast?_append_cons]
  rfl

theorem revealLoop_surface (b : Board) (stack acc : List Nat) :
    ((revealLoop b stack acc).2.hitMine = true →
      ∃ p : Nat, (revealLoop b stack acc).2.explodedCell = some p ∧
        (revealLoop b stack acc).2.revealed.getLast? = some p ∧
        (∃ c2 : Cell, (revealLoop b stack acc).1.cells[p]? = some c2 ∧
          c2.isMine = true ∧ c2.isRevealed = true) ∧
        (revealLoop b stack acc).2.powerup = none) ∧
    (∀ k : String, (revealLoop b stack acc).2.powerup = some k →
      (revealLoop b stack acc).2.hitMine = false ∧
      (revealLoop b stack acc).2.explodedCell = none ∧
      ∃ p : Nat, (revealLoop b stack acc).2.revealed.getLast? = some p ∧
        ∃ c2 : Cell, (revealLoop b stack acc).1.cells[p]? = some c2 ∧
          c2.powerup = some k ∧ c2.isRevealed = true) := by
  induction b, stack, acc using revealLoop.induct with
  | case1 b acc =>
    rw [revealLoop_nil]
    exact ⟨fun h => (by cases h), fun k h => (by cases h)⟩
  | case2 b acc p rest hp hrf ih =>
    rw [revealLoop_skip hp hrf]
    exact ih
  | case3 b acc p rest hp hrf hm =>
    simp only [not_or, Bool.not_eq_true] at hrf
    rw [revealLoop_mine hp hrf.1 hrf.2 hm]
    have hpe : b.cells[p]? = some b.cells[p] := List.getElem?_eq_getElem hp
    refine ⟨fun _ => ⟨p, rfl, getLast?_concat_eq _ _, ?_, rfl⟩, fun k h => (by cases h)⟩
    exact ⟨_, modifyCell_getElem?_self hpe _, hm, rfl⟩
  | case4 b acc p rest hp hrf hm hpw =>
    simp only [not_or, Bool.not_eq_true] at hrf
    rw [revealLoop_powerup hp hrf.1 hrf.2 (by simpa using hm) hpw]
    have hpe : b.cells[p]? = some b.cells[p] := List.getElem?_eq_getElem hp
    refine ⟨fun h => (by cases h), fun k h => ⟨rfl, rfl, p, getLast?_concat_eq _ _, ?_⟩⟩
    exact ⟨_, modifyCell_getElem?_self hpe _, h, rfl⟩
  | case5 b acc p rest hp hrf bx accx hm hpw hz pushes ih =>
    simp only [not_or, Bool.not_eq_true] at hrf
    rw [revealLoop_zero hp hrf.1 hrf.2 (by simpa using hm) (by simpa using hpw) hz]
    exact ih
  | case6 b acc p rest hp hrf bx accx hm hpw hz ih =>
    simp only [not_or, Bool.not_eq_true] at hrf
    rw [revealLoop_num hp hrf.1 hrf.2 (by simpa using hm) (by simpa using hpw) hz]
    exact ih
  | case7 b acc p rest hp ih =>
    rw [revealLoop_oob hp]
    exact ih

theorem revealLoop_no_mine (b : Board) (stack acc : List Nat) :
    (∀ q ∈ stack, ∀ c : Cell, b.cells[q]? = some c → c.isMine = false) →
      (revealLoop b stack acc).2.hitMine = false ∧
      (revealLoop b stack acc).2.explodedCell = none ∧
      (∀ q ∈ (revealLoop b stack acc).2.revealed, q ∉ acc →
        ∃ c2 : Cell, (revealLoop b stack acc).1.cells[q]? = some c2 ∧
          c2.isMine = false) := by
  induction b, stack, acc using revealLoop.induct with
  | case1 b acc =>
    intro _
    rw [revealLoop_nil]
    exact ⟨rfl, rfl, fun q hq hnq => absurd hq hnq⟩
  | case2 b acc p rest hp hrf ih =>
    rw [revealLoop_skip hp hrf]
    intro hst
    exact ih (fun q hq => hst q (List.mem_cons_of_mem _ hq))
  | case3 b acc p rest hp hrf hm =>
    intro hst
    have := hst p (List.mem_cons_self _ _) b.cells[p] (List.getElem?_eq_getElem hp)
    rw [hm] at this
    cases this
  | case4 b acc p rest hp hrf hm hpw =>
    simp only [not_or, Bool.not_eq_true] at hrf
    rw [revealLoop_powerup hp hrf.1 hrf.2 (by simpa using hm) hpw]
    intro hst
    have hpe : b.cells[p]? = some b.cells[p] := List.getElem?_eq_getElem hp
    refine ⟨rfl, rfl, ?_⟩
    intro q hq hnq
    rcases List.mem_append.mp hq with h | h
    · exact absurd h hnq
    · have hqp : q = p := by simpa using h
      subst hqp
      refine ⟨_, modifyCell_getElem?_self hpe _, ?_⟩
      simpa using hm
  | case5 b acc p rest hp hrf bx accx hm hpw hz pushes ih =>
    simp only [not_or, Bool.not_eq_true] at hrf
    rw [revealLoop_zero hp hrf.1 hrf.2 (by simpa using hm) (by simpa using hpw) hz]
    intro hst
    have hbxdef : bx = modifyCell b p (fun x => { x with isRevealed := true }) := rfl
    have hpe : b.cells[p]? = some b.cells[p] := List.getElem?_eq_getElem hp
    have hmine : ∀ q : Nat, ∀ c : Cell, b.cells[q]? = some c → c.isMine = false →
        ∀ c2 : Cell, bx.cells[q]? = some c2 → c2.isMine = false := by
      intro q c hc hcm c2 hc2
      by_cases hqp : q = p
      · subst hqp
        rw [hbxdef, modifyCell_getElem?_self hc] at hc2
        injection hc2 with hc2
        rw [← hc2]
        exact hcm
      · rw [hbxdef, modifyCell_getElem?_other hqp] at hc2
        rw [hc] at hc2
        injection hc2 with hc2
        rw [← hc2]
        exact hcm
    have hstackx : ∀ q ∈ pushes.reverse ++ rest, ∀ c : Cell,
        bx.cells[q]? = some c → c.isMine = false := by
      intro q hq c hc
      rcases List.mem_append.mp hq with h | h
      · have hq2 : q ∈ pushes := List.mem_reverse.mp h
        have hq3 : pushOK bx q = true := List.of_mem_filter hq2
        obtain ⟨a, ha, _, _, ham⟩ := pushOK_spec hq3
        rw [ha] at hc
        injection hc with hc
        rw [← hc]
        exact ham
      · rcases hcb : b.cells[q]? with _ | cb
        · exfalso
          have hlen : bx.cells.length = b.cells.length := by
            rw [hbxdef]
            unfold modifyCell
            rw [hpe]
            simp
          have := getElem?_some_lt hc
          rw [hlen] at this
          rw [List.getElem?_eq_getElem this] at hcb
          cases hcb
        · exact hmine q cb hcb
            (hst q (List.mem_cons_of_mem _ h) cb hcb) c hc
    obtain ⟨ha, hb2, hcc⟩ := ih hstackx
    refine ⟨ha, hb2, ?_⟩
    intro q hq hnq
    by_cases hqacc : q ∈ accx
    · rcases List.mem_append.mp hqacc with h | h
      · exact absurd h hnq
      · have hqp : q = p := by simpa using h
        subst hqp
        have hbq : bx.cells[q]? = some { b.cells[q] with isRevealed := true } :=
          modifyCell_getElem?_self hpe _
        have hevol := revealLoop_evol bx (pushes.reverse ++ rest) accx
        obtain ⟨c2, hc2, hev⟩ := hevol.2.2.2.2.2.2 q _ hbq
        refine ⟨c2, hc2, ?_⟩
        rw [hev.2.2.2.1]
        simpa using hm
    · exact hcc q hq hqacc
  | case6 b acc p rest hp hrf bx accx hm hpw hz ih =>
    simp only [not_or, Bool.not_eq_true] at hrf
    rw [revealLoop_num hp hrf.1 hrf.2 (by simpa using hm) (by simpa using hpw) hz]
    intro hst
    have hbxdef : bx = modifyCell b p (fun x => { x with isRevealed := true }) := rfl
    have hpe : b.cells[p]? = some b.cells[p] := List.getElem?_eq_getElem hp
    have hstackx : ∀ q ∈ rest, ∀ c : Cell, bx.cells[q]? = some c → c.isMine = false := by
      intro q hq c hc
      by_cases hqp : q = p
      · subst hqp
        rw [hbxdef, modifyCell_getElem?_self hpe] at hc
        injection hc with hc
        rw [← hc]
        simpa using hm
      · rw [hbxdef, modifyCell_getElem?_other hqp] at hc
        exact hst q (List.mem_cons_of_mem _ hq) c hc
    obtain ⟨ha, hb2, hcc⟩ := ih hstackx
    refine ⟨ha, hb2, ?_⟩
    intro q hq hnq
    by_cases hqacc : q ∈ accx
    · rcases List.mem_append.mp hqacc with h | h
      · exact absurd h hnq
      · have hqp : q = p := by simpa using h
        subst hqp
        have hbq : bx.cells[q]? = some { b.cells[q] with isRevealed := true } :=
          modifyCell_getElem?_self hpe _
        have hevol := revealLoop_evol bx rest accx
        obtain ⟨c2, hc2, hev⟩ := hevol.2.2.2.2.2.2 q _ hbq
        refine ⟨c2, hc2, ?_⟩
        rw [hev.2.2.2.1]
        simpa using hm
    · exact hcc q hq hqacc
  | case7 b acc p rest hp ih =>
    rw [revealLoop_oob hp]
    intro hst
    exact ih (fun q hq => hst q (List.mem_cons_of_mem _ hq))

theorem getCell_eq_cells {b : Board} {row col : Int} {c : Cell}
    (h : getCell b row col = some c) :
    b.cells[(row * b.cols + col).toNat]? = some c := by
  unfold getCell at h
  split at h
  · cases h
  · exact h

/-! ### Claim C5 -/

/-- Claim C5, confirmed.  Whenever `revealCell` reports a mine hit, the
exploded cell is the last cell the call revealed (nothing is revealed after
it in the same call), it really is a revealed mine on the resulting board,
and no power-up is reported; symmetrically, whenever a power-up kind is
reported, no mine was hit and the last revealed cell is a revealed cell
carrying exactly that power-up — the work list is abandoned at that point. -/
theorem claim_C5 (b : Board) (row col : Int) :
    ((revealCell b row col).2.hitMine = true →
      ∃ p : Nat, (revealCell b row col).2.explodedCell = some p ∧
        (revealCell b row col).2.revealed.getLast? = some p ∧
        (∃ c2 : Cell, (revealCell b row col).1.cells[p]? = some c2 ∧
          c2.isMine = true ∧ c2.isRevealed = true) ∧
        (revealCell b row col).2.powerup = none) ∧
    (∀ k : String, (revealCell b row col).2.powerup = some k →
      (revealCell b row col).2.hitMine = false ∧
      (revealCell b row col).2.explodedCell = none ∧
      ∃ p : Nat, (revealCell b row col).2.revealed.getLast? = some p ∧
        ∃ c2 : Cell, (revealCell b row col).1.cells[p]? = some c2 ∧
          c2.powerup = some k ∧ c2.isRevealed = true) := by
  rcases hgc : getCell b row col with _ | c
  · rw [revealCell_noop_oob hgc]
    exact ⟨fun h => (by cases h), fun k h => (by cases h)⟩
  · by_cases hrf : c.isRevealed = true ∨ c.isFlagged = true
    · rw [revealCell_noop_state hgc hrf]
      exact ⟨fun h => (by cases h), fun k h => (by cases h)⟩
    · simp only [not_or, Bool.not_eq_true] at hrf
      rw [revealCell_run hgc hrf.1 hrf.2]
      exact revealLoop_surface b _ []

/-- Witness for C5: a mine hit on a one-cell mine board and a power-up
pick-up on a two-cell board. -/
theorem claim_C5_witness :
    (revealCell mineBoard 0 0).2.hitMine = true ∧
    (∃ p : Nat, (revealCell mineBoard 0 0).2.explodedCell = some p ∧
      (revealCell mineBoard 0 0).2.revealed.getLast? = some p ∧
      (∃ c2 : Cell, (revealCell mineBoard 0 0).1.cells[p]? = some c2 ∧
        c2.isMine = true ∧ c2.isRevealed = true) ∧
      (revealCell mineBoard 0 0).2.powerup = none) ∧
    (revealCell powerupBoard 0 0).2.powerup = some "freeze" ∧
    ((revealCell powerupBoard 0 0).2.hitMine = false ∧
      (revealCell powerupBoard 0 0).2.explodedCell = none ∧
      ∃ p : Nat, (revealCell powerupBoard 0 0).2.revealed.getLast? = some p ∧
        ∃ c2 : Cell, (revealCell powerupBoard 0 0).1.cells[p]? = some c2 ∧
          c2.powerup = some "freeze" ∧ c2.isRevealed = true) := by
  have h1 : (revealCell mineBoard 0 0).2.hitMine = true := by
    simp +decide [revealCell, getCell, mineBoard, mkCell, revealLoop_mine]
  have h2 : (revealCell powerupBoard 0 0).2.powerup = some "freeze" := by
    simp +decide [revealCell, getCell, powerupBoard, mkCell, revealLoop_powerup]
  exact ⟨h1, (claim_C5 mineBoard 0 0).1 h1, h2,
    (claim_C5 powerupBoard 0 0).2 "freeze" h2⟩

/-! ### Claim C10 -/

/-- Claim C10, amended.  A mine can only ever be revealed as the targeted
cell itself: every mine in the returned revealed list is the target
position, and `hitMine` is true exactly when the call proceeds (the target
exists, is unrevealed and unflagged) and the target is a mine.  The
amendment restricts the original "iff the targeted cell is a mine" to
proceeding calls: a flagged or already-revealed mine target is a no-op with
`hitMine = false`. -/
theorem claim_C10 (b : Board) (row col : Int) :
    ((revealCell b row col).2.hitMine = true ↔
      ∃ c : Cell, getCell b row col = some c ∧ c.isRevealed = false ∧
        c.isFlagged = false ∧ c.isMine = true) ∧
    (∀ q ∈ (revealCell b row col).2.revealed,
      ∀ c2 : Cell, (revealCell b row col).1.cells[q]? = some c2 → c2.isMine = true →
        q = (row * b.cols + col).toNat) := by
  rcases hgc : getCell b row col with _ | c
  · rw [revealCell_noop_oob hgc]
    constructor
    · constructor
      · intro h
        cases h
      · rintro ⟨c, hc, -⟩
        cases hc
    · intro q hq
      simp [emptyResult] at hq
  · by_cases hrf : c.isRevealed = true ∨ c.isFlagged = true
    · rw [revealCell_noop_state hgc hrf]
      constructor
      · constructor
        · intro h
          cases h
        · rintro ⟨c2, hc2, hr2, hf2, -⟩
          injection hc2 with hc2
          subst hc2
          rcases hrf with h | h
          · rw [h] at hr2
            cases hr2
          · rw [h] at hf2
            cases hf2
      · intro q hq
        simp [emptyResult] at hq
    · simp only [not_or, Bool.not_eq_true] at hrf
      rw [revealCell_run hgc hrf.1 hrf.2]
      have hcells : b.cells[(row * b.cols + col).toNat]? = some c := getCell_eq_cells hgc
      have hp : (row * b.cols + col).toNat < b.cells.length := getElem?_some_lt hcells
      have hbc : b.cells[(row * b.cols + col).toNat] = c := by
        rw [List.getElem?_eq_getElem hp] at hcells
        injection hcells with hcells
      by_cases hm : c.isMine = true
      · rw [revealLoop_mine hp (by rw [hbc]; exact hrf.1) (by rw [hbc]; exact hrf.2)
          (by rw [hbc]; exact hm)]
        constructor
        · exact ⟨fun _ => ⟨c, rfl, hrf.1, hrf.2, hm⟩, fun _ => rfl⟩
        · intro q hq
          intro c2 _ _
          simpa using hq
      · have hnm : ∀ q ∈ [(row * b.cols + col).toNat], ∀ cq : Cell,
            b.cells[q]? = some cq → cq.isMine = false := by
          intro q hq cq hcq
          have hqe : q = (row * b.cols + col).toNat := by simpa using hq
          subst hqe
          rw [hcells] at hcq
          injection hcq with hcq
          subst hcq
          simpa using hm
        obtain ⟨hfalse, -, hnomine⟩ := revealLoop_no_mine b _ [] hnm
        constructor
        · rw [hfalse]
          constructor
          · intro h
            cases h
          · rintro ⟨c2, hc2, -, -, hm2⟩
            injection hc2 with hc2
            subst hc2
            rw [hm2] at hm
            exact absurd rfl hm
        · intro q hq c2 hc2 hm2
          obtain ⟨c3, hc3, hm3⟩ := hnomine q hq (by simp)
          rw [hc2] at hc3
          injection hc3 with hc3
          subst hc3
          rw [hm2] at hm3
          cases hm3

/-- Counterexample to C10 as stated: on a board whose only cell is a
flagged mine, the target is an in-bounds mine, yet `revealCell` is a no-op
reporting `hitMine = false` — the claimed "iff" fails. -/
theorem claim_C10_counterexample :
    getCell flaggedMineBoard 0 0 = some (mkCell 0 0 0 true false true) ∧
    (mkCell 0 0 0 true false true).isMine = true ∧
    (revealCell flaggedMineBoard 0 0).2.hitMine = false ∧
    revealCell flaggedMineBoard 0 0 = (flaggedMineBoard, emptyResult) := by
  refine ⟨by decide, by decide, ?_, ?_⟩
  · rw [revealCell_noop_state (c := mkCell 0 0 0 true false true)
      (by decide) (Or.inr (by decide))]
    rfl
  · exact revealCell_noop_state (c := mkCell 0 0 0 true false true)
      (by decide) (Or.inr (by decide))

/-- Witness for C10 on the amended statement: the one-cell mine board. -/
theorem claim_C10_witness :
    (revealCell mineBoard 0 0).2.hitMine = true ∧
    (0 : Nat) = ((0 : Int) * mineBoard.cols + 0).toNat := by
  have heval : revealCell mineBoard 0 0 =
      (modifyCell mineBoard 0 (fun x => { x with isRevealed := true }),
       { revealed := [0], hitMine := true, explodedCell := some 0, powerup := none }) := by
    simp +decide [revealCell, getCell, mineBoard, mkCell, revealLoop_mine]
  constructor
  · exact (claim_C10 mineBoard 0 0).1.mpr
      ⟨mkCell 0 0 0 true, by decide, by decide, by decide, by decide⟩
  · exact (claim_C10 mineBoard 0 0).2 0 (by rw [heval]; simp)
      (mkCell 0 0 0 true true) (by rw [heval]; decide) (by decide)

/-! ### Counting mines through layouts -/

theorem length_filter_filterMap {α : Type} (l : List α) (f : α → Option Cell)
    (p : Cell → Bool) :
    ((l.filterMap f).filter p).length =
      (l.filter (fun d => match f d with | some x => p x | none => false)).length := by
  induction l with
  | nil => rfl
  | cons hd tl ih =>
    rw [List.filterMap_cons]
    rcases hf : f hd with _ | x
    · rw [List.filter_cons]
      simp only [hf]
      exact ih
    · rw [List.filter_cons, List.filter_cons]
      simp only [hf]
      by_cases hp : p x = true
      · simp only [hp, if_true]
        simp [ih]
      · simp only [Bool.not_eq_true] at hp
        simp only [hp]
        simpa using ih

theorem MineLayoutEq_getCell {b b2 : Board} (h : MineLayoutEq b b2) (row col : Int) :
    (match getCell b2 row col with | some x => x.isMine | none => false) =
    (match getCell b row col with | some x => x.isMine | none => false) := by
  obtain ⟨hr, hc, hl, hcells⟩ := h
  unfold getCell
  rw [hr, hc]
  by_cases hb : row < 0 ∨ row ≥ b.rows ∨ col < 0 ∨ col ≥ b.cols
  · rw [if_pos hb, if_pos hb]
  · rw [if_neg hb, if_neg hb]
    rcases hq : b.cells[(row * b.cols + col).toNat]? with _ | c
    · have : b2.cells[(row * b.cols + col).toNat]? = none := by
        rw [List.getElem?_eq_none]
        rw [hl]
        exact Nat.le_of_not_lt (fun hlt => by
          rw [List.getElem?_eq_getElem hlt] at hq
          cases hq)
      rw [this]
    · obtain ⟨c2, hc2, -, -, hm2⟩ := hcells _ c hq
      rw [hc2]
      simpa using hm2

theorem codeCount_eq_of_layout {b b2 : Board} (h : MineLayoutEq b b2) (row col : Int) :
    codeCount b2 row col = codeCount b row col := by
  unfold codeCount getAdjacentCells
  rw [length_filter_filterMap, length_filter_filterMap]
  congr 1
  apply List.filter_congr
  intro d _
  exact MineLayoutEq_getCell h (row + d.1) (col + d.2)

theorem MineLayoutEq_refl (b : Board) : MineLayoutEq b b :=
  ⟨rfl, rfl, rfl, fun _ c h => ⟨c, h, rfl, rfl, rfl⟩⟩

theorem adjStep_eq_of_none {b : Board} {j : Nat} (hj : b.cells[j]? = none) :
    adjStep b j = b := by
  unfold adjStep
  rw [hj]

theorem adjStep_eq_of_some {b : Board} {j : Nat} {cj : Cell}
    (hj : b.cells[j]? = some cj) :
    adjStep b j = if cj.isMine then b
      else { b with cells := b.cells.set j { cj with adjacentMines := codeCount b cj.row cj.col } } := by
  unfold adjStep codeCount
  rw [hj]

theorem adjStep_layout (b : Board) (j : Nat) : MineLayoutEq b (adjStep b j) := by
  rcases hj : b.cells[j]? with _ | cj
  · rw [adjStep_eq_of_none hj]
    exact MineLayoutEq_refl b
  · rw [adjStep_eq_of_some hj]
    by_cases hm : cj.isMine = true
    · rw [if_pos hm]
      exact MineLayoutEq_refl b
    · rw [if_neg (by simp [hm])]
      refine ⟨rfl, rfl, by simp, ?_⟩
      intro i c hi
      by_cases hij : i = j
      · subst hij
        rw [hj] at hi
        injection hi with hi
        subst hi
        exact ⟨_, List.getElem?_set_eq_of_lt _ (getElem?_some_lt hj), rfl, rfl, rfl⟩
      · exact ⟨c, by
          rw [List.getElem?_set_ne (fun hx => hij hx.symm)]
          exact hi, rfl, rfl, rfl⟩

/-! ### The adjacent-count pass -/

theorem adjFold_char (l : List Nat) :
    ∀ b : Board, l.Nodup →
      (MineLayoutEq b (l.foldl adjStep b)) ∧
      ∀ (i : Nat) (c : Cell), b.cells[i]? = some c →
        (i ∉ l → (l.foldl adjStep b).cells[i]? = some c) ∧
        (i ∈ l → (c.isMine = true → (l.foldl adjStep b).cells[i]? = some c) ∧
          (c.isMine = false → (l.foldl adjStep b).cells[i]? =
            some { c with adjacentMines := codeCount b c.row c.col })) := by
  induction l with
  | nil =>
    intro b _
    exact ⟨MineLayoutEq_refl b, fun i c h =>
      ⟨fun _ => h, fun hmem => absurd hmem (List.not_mem_nil i)⟩⟩
  | cons j rest ih =>
    intro b hnd
    rw [List.nodup_cons] at hnd
    obtain ⟨hjr, hndr⟩ := hnd
    have hstep := adjStep_layout b j
    obtain ⟨ihlay, ihcells⟩ := ih (adjStep b j) hndr
    have hlay : MineLayoutEq b ((j :: rest).foldl adjStep b) := by
      rw [List.foldl_cons]
      obtain ⟨r1, c1, l1, f1⟩ := hstep
      obtain ⟨r2, c2, l2, f2⟩ := ihlay
      refine ⟨r2.trans r1, c2.trans c1, l2.trans l1, ?_⟩
      intro i c hi
      obtain ⟨cm, hcm, hm1, hm2, hm3⟩ := f1 i c hi
      obtain ⟨cf, hcf, hf1, hf2, hf3⟩ := f2 i cm hcm
      exact ⟨cf, hcf, hf1.trans hm1, hf2.trans hm2, hf3.trans hm3⟩
    refine ⟨hlay, ?_⟩
    intro i c hi
    have hcnt : codeCount (adjStep b j) c.row c.col = codeCount b c.row c.col :=
      codeCount_eq_of_layout hstep c.row c.col
    constructor
    · intro hnotin
      have hij : i ≠ j := fun hx => hnotin (hx ▸ List.mem_cons_self j rest)
      have hinr : i ∉ rest := fun hx => hnotin (List.mem_cons_of_mem _ hx)
      have hstep_i : (adjStep b j).cells[i]? = some c := by
        rcases hj : b.cells[j]? with _ | cj
        · rw [adjStep_eq_of_none hj]
          exact hi
        · rw [adjStep_eq_of_some hj]
          by_cases hm : cj.isMine = true
          · rw [if_pos hm]
            exact hi
          · rw [if_neg (by simp [hm])]
            dsimp only
            rw [List.getElem?_set_ne (fun hx => hij hx.symm)]
            exact hi
      rw [List.foldl_cons]
      exact (ihcells i c hstep_i).1 hinr
    · intro hmem
      rw [List.foldl_cons]
      by_cases hij : i = j
      · subst hij
        have hinr : i ∉ rest := hjr
        constructor
        · intro hm
          have hstep_i : (adjStep b i).cells[i]? = some c := by
            rw [adjStep_eq_of_some hi, if_pos hm]
            exact hi
          exact (ihcells i c hstep_i).1 hinr
        · intro hm
          have hstep_i : (adjStep b i).cells[i]? =
              some { c with adjacentMines := codeCount b c.row c.col } := by
            rw [adjStep_eq_of_some hi, if_neg (by simp [hm])]
            dsimp only
            exact List.getElem?_set_eq_of_lt _ (getElem?_some_lt hi)
          exact (ihcells i _ hstep_i).1 hinr
      · have hinr : i ∈ rest := by
          rcases List.mem_cons.mp hmem with h | h
          · exact absurd h hij
          · exact h
        have hstep_i : (adjStep b j).cells[i]? = some c := by
          rcases hj : b.cells[j]? with _ | cj
          · rw [adjStep_eq_of_none hj]
            exact hi
          · rw [adjStep_eq_of_some hj]
            by_cases hm : cj.isMine = true
            · rw [if_pos hm]
              exact hi
            · rw [if_neg (by simp [hm])]
              dsimp only
              rw [List.getElem?_set_ne (fun hx => hij hx.symm)]
              exact hi
        constructor
        · intro hm
          exact ((ihcells i c hstep_i).2 hinr).1 hm
        · intro hm
          rw [((ihcells i c hstep_i).2 hinr).2 hm, hcnt]

theorem computeAdjacents_char (b : Board) :
    MineLayoutEq b (computeAdjacents b) ∧
    ∀ (i : Nat) (c : Cell), b.cells[i]? = some c →
      (c.isMine = true → (computeAdjacents b).cells[i]? = some c) ∧
      (c.isMine = false → (computeAdjacents b).cells[i]? =
        some { c with adjacentMines := codeCount b c.row c.col }) := by
  obtain ⟨hlay, hcells⟩ := adjFold_char (List.range b.cells.length) b (List.nodup_range _)
  refine ⟨hlay, ?_⟩
  intro i c hi
  have hmem : i ∈ List.range b.cells.length :=
    List.mem_range.mpr (getElem?_some_lt hi)
  exact (hcells i c hi).2 hmem

/-! ### Structure of freshly created boards -/

theorem flatMap_grid_length {α : Type} (f : Nat → Nat → α) (nr nc : Nat) :
    ((List.range nr).flatMap (fun r => (List.range nc).map (f r))).length = nr * nc := by
  induction nr with
  | zero => simp
  | succ n ih =>
    rw [List.range_succ, List.flatMap_append, List.length_append, ih]
    simp [Nat.succ_mul]

theorem flatMap_grid_getElem {α : Type} (f : Nat → Nat → α) {nr nc r c : Nat}
    (hr : r < nr) (hc : c < nc) :
    ((List.range nr).flatMap (fun r => (List.range nc).map (f r)))[r * nc + c]? =
      some (f r c) := by
  induction nr with
  | zero => omega
  | succ n ih =>
    rw [List.range_succ, List.flatMap_append]
    rw [List.getElem?_append, flatMap_grid_length]
    by_cases hrn : r < n
    · have hlt : r * nc + c < n * nc := by
        have h4 : (r + 1) * nc ≤ n * nc := Nat.mul_le_mul_right nc hrn
        rw [Nat.add_mul, Nat.one_mul] at h4
        omega
      rw [if_pos hlt]
      exact ih hrn
    · have hre : r = n := by omega
      subst hre
      rw [if_neg (by omega)]
      have hsub : r * nc + c - r * nc = c := by omega
      rw [hsub]
      simp [hc]

theorem create_cells_length (rows cols mc : Int) (pc : Option PowerupConfig) :
    (create rows cols mc pc).cells.length = rows.toNat * cols.toNat := by
  unfold create
  exact flatMap_grid_length _ _ _

theorem create_getElem (rows cols mc : Int) (pc : Option PowerupConfig)
    {r c : Nat} (hr : r < rows.toNat) (hc : c < cols.toNat) :
    (create rows cols mc pc).cells[r * cols.toNat + c]? =
      some { row := (r : Int), col := (c : Int), index := r * cols.toNat + c,
             isMine := false, isRevealed := false, isFlagged := false,
             isQuestion := false, adjacentMines := 0, powerup := none,
             exploded := false, wrongFlag := false } := by
  unfold create
  exact flatMap_grid_getElem _ hr hc

theorem create_cells_props (rows cols mc : Int) (pc : Option PowerupConfig) :
    ∀ (i : Nat) (c0 : Cell), (create rows cols mc pc).cells[i]? = some c0 →
      c0.index = i ∧ c0.isMine = false ∧ c0.isRevealed = false ∧
      c0.isFlagged = false ∧ c0.isQuestion = false ∧ c0.powerup = none ∧
      c0.adjacentMines = 0 ∧
      c0.row = ((i / cols.toNat : Nat) : Int) ∧ c0.col = ((i % cols.toNat : Nat) : Int) := by
  intro i c0 hi
  have hlen : i < rows.toNat * cols.toNat := by
    have := getElem?_some_lt hi
    rwa [create_cells_length] at this
  have hnc : 0 < cols.toNat := by
    rcases Nat.eq_zero_or_pos cols.toNat with h | h
    · rw [h, Nat.mul_zero] at hlen
      omega
    · exact h
  have hr : i / cols.toNat < rows.toNat := Nat.div_lt_of_lt_mul (by
    rw [Nat.mul_comm] at hlen
    exact hlen)
  have hc : i % cols.toNat < cols.toNat := Nat.mod_lt _ hnc
  have hieq : i / cols.toNat * cols.toNat + i % cols.toNat = i := by
    have h2 := Nat.div_add_mod i cols.toNat
    calc i / cols.toNat * cols.toNat + i % cols.toNat
        = cols.toNat * (i / cols.toNat) + i % cols.toNat := by ring
      _ = i := h2
  rw [← hieq] at hi
  rw [create_getElem rows cols mc pc hr hc] at hi
  injection hi with hi
  subst hi
  refine ⟨by rw [hieq], rfl, rfl, rfl, rfl, rfl, rfl, rfl, rfl⟩

theorem coordFaithful_create (rows cols mc : Int) (pc : Option PowerupConfig) :
    coordFaithful (create rows cols mc pc) := by
  refine ⟨create_cells_length rows cols mc pc, ?_⟩
  intro i c hi
  obtain ⟨h1, -, -, -, -, -, -, h8, h9⟩ := create_cells_props rows cols mc pc i c hi
  exact ⟨h8, h9, h1⟩

/-! ### Fisher-Yates shuffle only permutes -/

theorem listSwap_mem {α : Type} {l : List α} {i j : Nat} :
    ∀ x ∈ listSwap l i j, x ∈ l := by
  intro x hx
  unfold listSwap at hx
  rcases hi : l[i]? with _ | a <;> rcases hj : l[j]? with _ | bb <;>
    simp only [hi, hj] at hx
  · exact hx
  · exact hx
  · exact hx
  · rcases List.mem_or_eq_of_mem_set hx with hx2 | rfl
    · rcases List.mem_or_eq_of_mem_set hx2 with hx3 | rfl
      · exact hx3
      · exact mem_of_getElem?_some hj
    · exact mem_of_getElem?_some hi

theorem shuffleGo_mem {α : Type} (randFn : Nat → Nat) :
    ∀ (n : Nat) (l : List α), ∀ x ∈ shuffleGo randFn l n, x ∈ l := by
  intro n
  induction n with
  | zero =>
    intro l x hx
    exact hx
  | succ m ih =>
    intro l x hx
    rw [shuffleGo] at hx
    exact listSwap_mem x (ih _ x hx)

theorem shuffleArray_mem {α : Type} (randFn : Nat → Nat) (l : List α) :
    ∀ x ∈ shuffleArray randFn l, x ∈ l :=
  shuffleGo_mem randFn (l.length - 1) l

/-! ### Mine placement and power-up placement preserve structure -/

theorem modifyCell_fields (b : Board) (p : Nat) (f : Cell → Cell) :
    (modifyCell b p f).rows = b.rows ∧ (modifyCell b p f).cols = b.cols ∧
    (modifyCell b p f).mineCount = b.mineCount ∧
    (modifyCell b p f).minesPlaced = b.minesPlaced ∧
    (modifyCell b p f).powerupConfig = b.powerupConfig ∧
    (modifyCell b p f).cells.length = b.cells.length := by
  unfold modifyCell
  rcases h : b.cells[p]? with _ | c <;> simp

theorem modifyCell_getElem?_cases (b : Board) (p : Nat) (f : Cell → Cell)
    (i : Nat) (c : Cell) (hi : b.cells[i]? = some c) :
    (modifyCell b p f).cells[i]? = some c ∨
      (i = p ∧ (modifyCell b p f).cells[i]? = some (f c)) := by
  by_cases hip : i = p
  · subst hip
    exact Or.inr ⟨rfl, modifyCell_getElem?_self hi f⟩
  · exact Or.inl (by rw [modifyCell_getElem?_other hip]; exact hi)

theorem setMines_pres (ps : List Nat) : ∀ b : Board,
    (setMines b ps).rows = b.rows ∧ (setMines b ps).cols = b.cols ∧
    (setMines b ps).mineCount = b.mineCount ∧
    (setMines b ps).minesPlaced = b.minesPlaced ∧
    (setMines b ps).powerupConfig = b.powerupConfig ∧
    (setMines b ps).cells.length = b.cells.length ∧
    ∀ (i : Nat) (c : Cell), b.cells[i]? = some c →
      ∃ c2 : Cell, (setMines b ps).cells[i]? = some c2 ∧
        c2.row = c.row ∧ c2.col = c.col ∧ c2.index = c.index ∧
        c2.isRevealed = c.isRevealed ∧ c2.isFlagged = c.isFlagged ∧
        c2.isQuestion = c.isQuestion ∧ c2.adjacentMines = c.adjacentMines ∧
        c2.powerup = c.powerup := by
  induction ps with
  | nil =>
    intro b
    exact ⟨rfl, rfl, rfl, rfl, rfl, rfl, fun i c h =>
      ⟨c, h, rfl, rfl, rfl, rfl, rfl, rfl, rfl, rfl⟩⟩
  | cons p rest ih =>
    intro b
    have hstep := modifyCell_fields b p (fun c => { c with isMine := true })
    obtain ⟨r2, c2, m2, mp2, pc2, l2, cells2⟩ := ih (modifyCell b p (fun c => { c with isMine := true }))
    refine ⟨r2.trans hstep.1, c2.trans hstep.2.1, m2.trans hstep.2.2.1,
      mp2.trans hstep.2.2.2.1, pc2.trans hstep.2.2.2.2.1, l2.trans hstep.2.2.2.2.2, ?_⟩
    intro i c hi
    rcases modifyCell_getElem?_cases b p (fun c => { c with isMine := true }) i c hi with
      hm | ⟨hip, hm⟩
    · obtain ⟨cf, hcf, hf⟩ := cells2 i c hm
      exact ⟨cf, hcf, hf⟩
    · obtain ⟨cf, hcf, hf1, hf2, hf3, hf4, hf5, hf6, hf7, hf8⟩ := cells2 i _ hm
      exact ⟨cf, hcf, hf1, hf2, hf3, hf4, hf5, hf6, hf7, hf8⟩

theorem setMines_not_mem (ps : List Nat) : ∀ (b : Board) (i : Nat), i ∉ ps →
    (setMines b ps).cells[i]? = b.cells[i]? := by
  induction ps with
  | nil =>
    intro b i _
    rfl
  | cons p rest ih =>
    intro b i hni
    have hip : i ≠ p := fun hx => hni (hx ▸ List.mem_cons_self p rest)
    have hir : i ∉ rest := fun hx => hni (List.mem_cons_of_mem _ hx)
    unfold setMines
    rw [List.foldl_cons]
    have := ih (modifyCell b p (fun c => { c with isMine := true })) i hir
    unfold setMines at this
    rw [this, modifyCell_getElem?_other hip]

theorem powFold_pres (l : List (Nat × Nat)) (roll : Nat → Bool)
    (pw : Nat → Option String) : ∀ b : Board,
    ((l.foldl (fun bb ki => if roll ki.1 then
        modifyCell bb ki.2 (fun c => { c with powerup := pw ki.1 }) else bb) b).rows = b.rows ∧
     (l.foldl (fun bb ki => if roll ki.1 then
        modifyCell bb ki.2 (fun c => { c with powerup := pw ki.1 }) else bb) b).cols = b.cols ∧
     (l.foldl (fun bb ki => if roll ki.1 then
        modifyCell bb ki.2 (fun c => { c with powerup := pw ki.1 }) else bb) b).mineCount = b.mineCount ∧
     (l.foldl (fun bb ki => if roll ki.1 then
        modifyCell bb ki.2 (fun c => { c with powerup := pw ki.1 }) else bb) b).minesPlaced = b.minesPlaced ∧
     (l.foldl (fun bb ki => if roll ki.1 then
        modifyCell bb ki.2 (fun c => { c with powerup := pw ki.1 }) else bb) b).powerupConfig = b.powerupConfig ∧
     (l.foldl (fun bb ki => if roll ki.1 then
        modifyCell bb ki.2 (fun c => { c with powerup := pw ki.1 }) else bb) b).cells.length = b.cells.length) ∧
    ∀ (i : Nat) (c : Cell), b.cells[i]? = some c →
      ∃ c2 : Cell, (l.foldl (fun bb ki => if roll ki.1 then
          modifyCell bb ki.2 (fun c => { c with powerup := pw ki.1 }) else bb) b).cells[i]? = some c2 ∧
        c2.row = c.row ∧ c2.col = c.col ∧ c2.index = c.index ∧
        c2.isMine = c.isMine ∧ c2.isRevealed = c.isRevealed ∧
        c2.isFlagged = c.isFlagged ∧ c2.isQuestion = c.isQuestion ∧
        c2.adjacentMines = c.adjacentMines := by
  induction l with
  | nil =>
    intro b
    exact ⟨⟨rfl, rfl, rfl, rfl, rfl, rfl⟩, fun i c h =>
      ⟨c, h, rfl, rfl, rfl, rfl, rfl, rfl, rfl, rfl⟩⟩
  | cons ki rest ih =>
    intro b
    rw [List.foldl_cons]
    by_cases hroll : roll ki.1 = true
    · rw [if_pos hroll]
      have hstep := modifyCell_fields b ki.2 (fun c => { c with powerup := pw ki.1 })
      obtain ⟨⟨r2, c2, m2, mp2, pc2, l2⟩, cells2⟩ :=
        ih (modifyCell b ki.2 (fun c => { c with powerup := pw ki.1 }))
      refine ⟨⟨r2.trans hstep.1, c2.trans hstep.2.1, m2.trans hstep.2.2.1,
        mp2.trans hstep.2.2.2.1, pc2.trans hstep.2.2.2.2.1,
        l2.trans hstep.2.2.2.2.2⟩, ?_⟩
      intro i c hi
      rcases modifyCell_getElem?_cases b ki.2 (fun c => { c with powerup := pw ki.1 })
          i c hi with hm | ⟨hip, hm⟩
      · exact cells2 i c hm
      · obtain ⟨cf, hcf, h1, h2, h3, h4, h5, h6, h7, h8⟩ := cells2 i _ hm
        exact ⟨cf, hcf, h1, h2, h3, h4, h5, h6, h7, h8⟩
    · rw [if_neg hroll]
      exact ih b

theorem placePowerups_pres (b : Board) (sr : Nat → Bool) (tr : Nat → Nat) :
    ((placePowerups b sr tr).rows = b.rows ∧ (placePowerups b sr tr).cols = b.cols ∧
     (placePowerups b sr tr).mineCount = b.mineCount ∧
     (placePowerups b sr tr).minesPlaced = b.minesPlaced ∧
     (placePowerups b sr tr).powerupConfig = b.powerupConfig ∧
     (placePowerups b sr tr).cells.length = b.cells.length) ∧
    ∀ (i : Nat) (c : Cell), b.cells[i]? = some c →
      ∃ c2 : Cell, (placePowerups b sr tr).cells[i]? = some c2 ∧
        c2.row = c.row ∧ c2.col = c.col ∧ c2.index = c.index ∧
        c2.isMine = c.isMine ∧ c2.isRevealed = c.isRevealed ∧
        c2.isFlagged = c.isFlagged ∧ c2.isQuestion = c.isQuestion ∧
        c2.adjacentMines = c.adjacentMines := by
  unfold placePowerups
  exact powFold_pres _ sr
    (fun k => (match b.powerupConfig with
      | some pc => pc.types
      | none => [])[tr k % (match b.powerupConfig with
      | some pc => pc.types
      | none => []).length]?) b

/-! ### Coordinate-faithful boards and brute-force counting -/

theorem int_coord_toNat {r c cols : Int} (hr0 : 0 ≤ r) (hc0 : 0 ≤ c)
    (hcols : 0 ≤ cols) :
    (r * cols + c).toNat = r.toNat * cols.toNat + c.toNat := by
  obtain ⟨rn, rfl⟩ := Int.eq_ofNat_of_zero_le hr0
  obtain ⟨cn, rfl⟩ := Int.eq_ofNat_of_zero_le hc0
  obtain ⟨ncn, rfl⟩ := Int.eq_ofNat_of_zero_le hcols
  have hcast : ((rn : Int)) * (ncn : Int) + (cn : Int) = ((rn * ncn + cn : Nat) : Int) := by
    push_cast
    ring
  rw [hcast, Int.toNat_natCast, Int.toNat_natCast, Int.toNat_natCast, Int.toNat_natCast]

theorem coordFaithful_getCell_iff {b : Board} (hcf : coordFaithful b)
    (r c : Int) (x : Cell) :
    getCell b r c = some x ↔ x ∈ b.cells ∧ x.row = r ∧ x.col = c := by
  obtain ⟨hlen, hcells⟩ := hcf
  constructor
  · intro hg
    unfold getCell at hg
    split at hg
    · cases hg
    · rename_i hob
      push_neg at hob
      obtain ⟨hr0, hr1, hc0, hc1⟩ := hob
      have hcols0 : (0 : Int) < b.cols := lt_of_le_of_lt hc0 hc1
      obtain ⟨hxr, hxc, hxi⟩ := hcells _ x hg
      have hpos : (r * b.cols + c).toNat = r.toNat * b.cols.toNat + c.toNat :=
        int_coord_toNat hr0 hc0 (le_of_lt hcols0)
      have hcn0 : 0 < b.cols.toNat := by
        rcases Nat.eq_zero_or_pos b.cols.toNat with h | h
        · exfalso
          have := Int.toNat_of_nonneg (le_of_lt hcols0)
          rw [h] at this
          omega
        · exact h
      have hcnlt : c.toNat < b.cols.toNat := by
        have h1 : c.toNat < b.cols.toNat ↔ c < b.cols := by
          rw [Int.toNat_lt_toNat hcols0]
        exact h1.mpr hc1
      have hdiv : (r.toNat * b.cols.toNat + c.toNat) / b.cols.toNat = r.toNat := by
        rw [Nat.mul_comm r.toNat, Nat.mul_add_div hcn0, Nat.div_eq_of_lt hcnlt]
        omega
      have hmod : (r.toNat * b.cols.toNat + c.toNat) % b.cols.toNat = c.toNat := by
        rw [Nat.mul_comm r.toNat, Nat.mul_add_mod, Nat.mod_eq_of_lt hcnlt]
      refine ⟨mem_of_getElem?_some hg, ?_, ?_⟩
      · rw [hxr, hpos, hdiv, Int.toNat_of_nonneg hr0]
      · rw [hxc, hpos, hmod, Int.toNat_of_nonneg hc0]
  · rintro ⟨hx, hxr, hxc⟩
    obtain ⟨i, hi⟩ := List.mem_iff_getElem?.mp hx
    obtain ⟨hrow, hcol, -⟩ := hcells i x hi
    have hilen : i < b.rows.toNat * b.cols.toNat := by
      have := getElem?_some_lt hi
      rwa [hlen] at this
    have hcn0 : 0 < b.cols.toNat := by
      rcases Nat.eq_zero_or_pos b.cols.toNat with h | h
      · rw [h, Nat.mul_zero] at hilen
        omega
      · exact h
    have hrn0 : 0 < b.rows.toNat := by
      rcases Nat.eq_zero_or_pos b.rows.toNat with h | h
      · rw [h, Nat.zero_mul] at hilen
        omega
      · exact h
    have hrows_pos : (0 : Int) < b.rows := by
      by_contra hcon
      push_neg at hcon
      rw [Int.toNat_of_nonpos hcon] at hrn0
      omega
    have hcols_pos : (0 : Int) < b.cols := by
      by_contra hcon
      push_neg at hcon
      rw [Int.toNat_of_nonpos hcon] at hcn0
      omega
    have hdivlt : i / b.cols.toNat < b.rows.toNat :=
      Nat.div_lt_of_lt_mul (by rwa [Nat.mul_comm] at hilen)
    have hr0 : 0 ≤ r := by
      rw [← hxr, hrow]
      exact Int.natCast_nonneg _
    have hc0 : 0 ≤ c := by
      rw [← hxc, hcol]
      exact Int.natCast_nonneg _
    have hr1 : r < b.rows := by
      rw [← hxr, hrow]
      calc ((i / b.cols.toNat : Nat) : Int) < ((b.rows.toNat : Nat) : Int) := by
            exact_mod_cast hdivlt
        _ = b.rows := Int.toNat_of_nonneg (le_of_lt hrows_pos)
    have hc1 : c < b.cols := by
      rw [← hxc, hcol]
      calc ((i % b.cols.toNat : Nat) : Int) < ((b.cols.toNat : Nat) : Int) := by
            exact_mod_cast Nat.mod_lt _ hcn0
        _ = b.cols := Int.toNat_of_nonneg (le_of_lt hcols_pos)
    unfold getCell
    rw [if_neg (by push_neg; exact ⟨hr0, hr1, hc0, hc1⟩)]
    have hpos : (r * b.cols + c).toNat = r.toNat * b.cols.toNat + c.toNat :=
      int_coord_toNat hr0 hc0 (le_of_lt hcols_pos)
    have hrtn : r.toNat = i / b.cols.toNat := by
      rw [← hxr, hrow, Int.toNat_natCast]
    have hctn : c.toNat = i % b.cols.toNat := by
      rw [← hxc, hcol, Int.toNat_natCast]
    have hieq : r.toNat * b.cols.toNat + c.toNat = i := by
      rw [hrtn, hctn]
      have h2 := Nat.div_add_mod i b.cols.toNat
      calc i / b.cols.toNat * b.cols.toNat + i % b.cols.toNat
          = b.cols.toNat * (i / b.cols.toNat) + i % b.cols.toNat := by ring
        _ = i := h2
    rw [hpos, hieq]
    exact hi

theorem codeCount_eq_brute {b : Board} (hcf : coordFaithful b) (row col : Int) :
    codeCount b row col = bruteMineCount b row col := by
  unfold codeCount bruteMineCount getAdjacentCells
  rw [length_filter_filterMap]
  congr 1
  apply List.filter_congr
  intro d _
  rcases hg : getCell b (row + d.1) (col + d.2) with _ | x
  · dsimp only
    symm
    rw [List.any_eq_false]
    intro y hy
    by_contra hcon
    rw [Bool.and_eq_true, Bool.and_eq_true] at hcon
    obtain ⟨⟨hyr, hyc⟩, hym⟩ := hcon
    rw [beq_iff_eq] at hyr hyc
    have := (coordFaithful_getCell_iff hcf (row + d.1) (col + d.2) y).mpr ⟨hy, hyr, hyc⟩
    rw [hg] at this
    cases this
  · dsimp only
    by_cases hm : x.isMine = true
    · rw [hm]
      symm
      rw [List.any_eq_true]
      obtain ⟨hmem, hxr, hxc⟩ := (coordFaithful_getCell_iff hcf _ _ x).mp hg
      exact ⟨x, hmem, by simp [hxr, hxc, hm]⟩
    · simp only [Bool.not_eq_true] at hm
      rw [hm]
      symm
      rw [List.any_eq_false]
      intro y hy
      by_contra hcon
      rw [Bool.and_eq_true, Bool.and_eq_true] at hcon
      obtain ⟨⟨hyr, hyc⟩, hym⟩ := hcon
      rw [beq_iff_eq] at hyr hyc
      have := (coordFaithful_getCell_iff hcf (row + d.1) (col + d.2) y).mpr ⟨hy, hyr, hyc⟩
      rw [hg] at this
      injection this with this
      subst this
      rw [hym] at hm
      cases hm

theorem bruteMineCount_eq_of_layout {b b2 : Board} (h : MineLayoutEq b b2)
    (row col : Int) : bruteMineCount b2 row col = bruteMineCount b row col := by
  obtain ⟨hr, hc, hl, hcells⟩ := h
  unfold bruteMineCount
  congr 1
  apply List.filter_congr
  intro d _
  by_cases hany : b.cells.any
      (fun y => y.row == row + d.1 && y.col == col + d.2 && y.isMine) = true
  · rw [hany]
    rw [List.any_eq_true] at hany ⊢
    obtain ⟨y, hy, hpy⟩ := hany
    obtain ⟨i, hi⟩ := List.mem_iff_getElem?.mp hy
    obtain ⟨y2, hy2, hr2, hc2, hm2⟩ := hcells i y hi
    refine ⟨y2, mem_of_getElem?_some hy2, ?_⟩
    rw [Bool.and_eq_true, Bool.and_eq_true] at hpy ⊢
    obtain ⟨⟨p1, p2⟩, p3⟩ := hpy
    rw [beq_iff_eq] at p1 p2
    refine ⟨⟨?_, ?_⟩, ?_⟩
    · rw [beq_iff_eq, hr2, p1]
    · rw [beq_iff_eq, hc2, p2]
    · rw [hm2, p3]
  · simp only [Bool.not_eq_true] at hany
    have h2 : (b2.cells.any fun y =>
        y.row == row + d.1 && y.col == col + d.2 && y.isMine) = false := by
      rw [List.any_eq_false]
      intro y2 hy2
      by_contra hcon
      obtain ⟨i, hi2⟩ := List.mem_iff_getElem?.mp hy2
      have hib : i < b.cells.length := by
        have := getElem?_some_lt hi2
        rwa [hl] at this
      rcases hbi : b.cells[i]? with _ | y
      · rw [List.getElem?_eq_getElem hib] at hbi
        cases hbi
      · obtain ⟨y2x, hy2x, hrx, hcx, hmx⟩ := hcells i y hbi
        rw [hi2] at hy2x
        injection hy2x with hy2x
        subst hy2x
        rw [List.any_eq_false] at hany
        have hay := hany y (mem_of_getElem?_some hbi)
        rw [Bool.and_eq_true, Bool.and_eq_true] at hcon
        obtain ⟨⟨p1, p2⟩, p3⟩ := hcon
        rw [beq_iff_eq] at p1 p2
        have hyp : (y.row == row + d.1 && y.col == col + d.2 && y.isMine) = true := by
          rw [Bool.and_eq_true, Bool.and_eq_true]
          refine ⟨⟨?_, ?_⟩, ?_⟩
          · rw [beq_iff_eq, ← hrx, p1]
          · rw [beq_iff_eq, ← hcx, p2]
          · rw [← hmx, p3]
        exact hay hyp
    rw [hany, h2]

/-! ### Unfolding placeMines -/

theorem getCell_some_bounds {b : Board} {row col : Int} {x : Cell}
    (h : getCell b row col = some x) :
    0 ≤ row ∧ row < b.rows ∧ 0 ≤ col ∧ col < b.cols := by
  unfold getCell at h
  split at h
  · cases h
  · rename_i hob
    push_neg at hob
    exact hob

theorem coord_pos_lt {r c rows cols : Int} (hr0 : 0 ≤ r) (hr1 : r < rows)
    (hc0 : 0 ≤ c) (hc1 : c < cols) :
    (r * cols + c).toNat < rows.toNat * cols.toNat := by
  have hcols : (0 : Int) < cols := lt_of_le_of_lt hc0 hc1
  have hrows : (0 : Int) < rows := lt_of_le_of_lt hr0 hr1
  rw [int_coord_toNat hr0 hc0 (le_of_lt hcols)]
  have h1 : r.toNat < rows.toNat := (Int.toNat_lt_toNat hrows).mpr hr1
  have h2 : c.toNat < cols.toNat := (Int.toNat_lt_toNat hcols).mpr hc1
  have h3 : (r.toNat + 1) * cols.toNat ≤ rows.toNat * cols.toNat :=
    Nat.mul_le_mul_right _ h1
  rw [Nat.add_mul, Nat.one_mul] at h3
  omega

theorem placeMines_shape {b : Board} (hmp : b.minesPlaced = false)
    (safeRow safeCol : Int) (randFn : Nat → Nat) (sr : Nat → Bool) (tr : Nat → Nat) :
    ∃ mps : List Nat,
      (∀ i ∈ mps,
        (((safeRow * b.cols + safeCol) ::
          (getAdjacentCells b safeRow safeCol).map (fun c => (c.index : Int))).contains
            (Int.ofNat i)) = false) ∧
      placeMines b safeRow safeCol randFn sr tr =
        { (match (computeAdjacents (setMines b mps)).powerupConfig with
           | some pcc =>
             if pcc.enabled then placePowerups (computeAdjacents (setMines b mps)) sr tr
             else computeAdjacents (setMines b mps)
           | none => computeAdjacents (setMines b mps)) with minesPlaced := true } := by
  set sz : List Int := (safeRow * b.cols + safeCol) ::
    (getAdjacentCells b safeRow safeCol).map (fun c => (c.index : Int)) with hsz
  set vp : List Nat := (List.range b.cells.length).filter
    (fun (i : Nat) => !sz.contains (Int.ofNat i)) with hvp
  set mps : List Nat := (shuffleArray randFn vp).take
    (min b.mineCount (vp.length : Int)).toNat with hmps
  refine ⟨mps, ?_, ?_⟩
  · intro i hi
    rw [hmps] at hi
    have h1 : i ∈ shuffleArray randFn vp := List.take_subset _ _ hi
    have h2 : i ∈ vp := shuffleArray_mem randFn vp i h1
    rw [hvp] at h2
    have h3 := List.of_mem_filter h2
    simpa using h3
  · unfold placeMines
    rw [if_neg (by simp [hmp])]

/-! ### The effect of the placement pipeline on single cells -/

theorem pipeline_nonmine {b : Board} {mps : List Nat} (sr : Nat → Bool)
    (tr : Nat → Nat) {q : Nat} {cq : Cell} (hq : b.cells[q]? = some cq)
    (hqm : cq.isMine = false) (hnot : q ∉ mps) :
    ∀ cf : Cell,
      ({ (match (computeAdjacents (setMines b mps)).powerupConfig with
          | some pcc =>
            if pcc.enabled then placePowerups (computeAdjacents (setMines b mps)) sr tr
            else computeAdjacents (setMines b mps)
          | none => computeAdjacents (setMines b mps)) with
         minesPlaced := true } : Board).cells[q]? = some cf →
      cf.isMine = false := by
  intro cf hcf
  have hB1 : (setMines b mps).cells[q]? = some cq := by
    rw [setMines_not_mem mps b q hnot]
    exact hq
  have hB2 : (computeAdjacents (setMines b mps)).cells[q]? =
      some { cq with adjacentMines := codeCount (setMines b mps) cq.row cq.col } :=
    ((computeAdjacents_char (setMines b mps)).2 q cq hB1).2 hqm
  rcases hpc : (computeAdjacents (setMines b mps)).powerupConfig with _ | pcc
  · simp only [hpc] at hcf
    rw [hB2] at hcf
    injection hcf with hcf
    rw [← hcf]
    exact hqm
  · simp only [hpc] at hcf
    by_cases hen : pcc.enabled = true
    · rw [if_pos hen] at hcf
      obtain ⟨c2, hc2, -, -, -, hm2, -⟩ :=
        (placePowerups_pres (computeAdjacents (setMines b mps)) sr tr).2 q _ hB2
      rw [hc2] at hcf
      injection hcf with hcf
      rw [← hcf, hm2]
      exact hqm
    · rw [if_neg hen] at hcf
      rw [hB2] at hcf
      injection hcf with hcf
      rw [← hcf]
      exact hqm

theorem pipeline_layout (b : Board) (mps : List Nat) (sr : Nat → Bool)
    (tr : Nat → Nat) :
    MineLayoutEq (setMines b mps)
      ({ (match (computeAdjacents (setMines b mps)).powerupConfig with
          | some pcc =>
            if pcc.enabled then placePowerups (computeAdjacents (setMines b mps)) sr tr
            else computeAdjacents (setMines b mps)
          | none => computeAdjacents (setMines b mps)) with
         minesPlaced := true } : Board) := by
  have h1 : MineLayoutEq (setMines b mps) (computeAdjacents (setMines b mps)) :=
    (computeAdjacents_char (setMines b mps)).1
  rcases hpc : (computeAdjacents (setMines b mps)).powerupConfig with _ | pcc
  · simp only [hpc]
    exact ⟨h1.1, h1.2.1, h1.2.2.1, h1.2.2.2⟩
  · simp only [hpc]
    by_cases hen : pcc.enabled = true
    · rw [if_pos hen]
      obtain ⟨⟨pr, pcc2, -, -, -, pl⟩, pcells⟩ :=
        placePowerups_pres (computeAdjacents (setMines b mps)) sr tr
      obtain ⟨e1, e2, e3, e4⟩ := h1
      refine ⟨pr.trans e1, pcc2.trans e2, pl.trans e3, ?_⟩
      intro i c hi
      obtain ⟨cm, hcm, m1, m2, m3⟩ := e4 i c hi
      obtain ⟨cp, hcp, p1, p2, -, p4, -⟩ := pcells i cm hcm
      exact ⟨cp, hcp, p1.trans m1, p2.trans m2, p4.trans m3⟩
    · rw [if_neg hen]
      exact ⟨h1.1, h1.2.1, h1.2.2.1, h1.2.2.2⟩

theorem pipeline_cells (b : Board) (mps : List Nat) (sr : Nat → Bool)
    (tr : Nat → Nat) :
    ∀ (i : Nat) (cf : Cell),
      ({ (match (computeAdjacents (setMines b mps)).powerupConfig with
          | some pcc =>
            if pcc.enabled then placePowerups (computeAdjacents (setMines b mps)) sr tr
            else computeAdjacents (setMines b mps)
          | none => computeAdjacents (setMines b mps)) with
         minesPlaced := true } : Board).cells[i]? = some cf →
      cf.isMine = false →
      ∃ c1 : Cell, (setMines b mps).cells[i]? = some c1 ∧ c1.isMine = false ∧
        cf.row = c1.row ∧ cf.col = c1.col ∧
        cf.adjacentMines = codeCount (setMines b mps) c1.row c1.col := by
  intro i cf hcf hfm
  have hlay := pipeline_layout b mps sr tr
  have hlen : i < (setMines b mps).cells.length := by
    have h1 := getElem?_some_lt hcf
    rw [hlay.2.2.1] at h1
    exact h1
  rcases hb1 : (setMines b mps).cells[i]? with _ | c1
  · rw [List.getElem?_eq_getElem hlen] at hb1
    cases hb1
  · by_cases hm1 : c1.isMine = true
    · exfalso
      have hB2 : (computeAdjacents (setMines b mps)).cells[i]? = some c1 :=
        ((computeAdjacents_char (setMines b mps)).2 i c1 hb1).1 hm1
      rcases hpc : (computeAdjacents (setMines b mps)).powerupConfig with _ | pcc
      · simp only [hpc] at hcf
        rw [hB2] at hcf
        injection hcf with hcf
        rw [← hcf, hm1] at hfm
        cases hfm
      · simp only [hpc] at hcf
        by_cases hen : pcc.enabled = true
        · rw [if_pos hen] at hcf
          obtain ⟨c2, hc2, -, -, -, hm2, -⟩ :=
            (placePowerups_pres (computeAdjacents (setMines b mps)) sr tr).2 i _ hB2
          rw [hc2] at hcf
          injection hcf with hcf
          rw [← hcf, hm2, hm1] at hfm
          cases hfm
        · rw [if_neg hen] at hcf
          rw [hB2] at hcf
          injection hcf with hcf
          rw [← hcf, hm1] at hfm
          cases hfm
    · simp only [Bool.not_eq_true] at hm1
      have hB2 : (computeAdjacents (setMines b mps)).cells[i]? =
          some { c1 with adjacentMines := codeCount (setMines b mps) c1.row c1.col } :=
        ((computeAdjacents_char (setMines b mps)).2 i c1 hb1).2 hm1
      refine ⟨c1, rfl, hm1, ?_⟩
      rcases hpc : (computeAdjacents (setMines b mps)).powerupConfig with _ | pcc
      · simp only [hpc] at hcf
        rw [hB2] at hcf
        injection hcf with hcf
        rw [← hcf]
        exact ⟨rfl, rfl, rfl⟩
      · simp only [hpc] at hcf
        by_cases hen : pcc.enabled = true
        · rw [if_pos hen] at hcf
          obtain ⟨c2, hc2, p1, p2, -, -, -, -, -, p8⟩ :=
            (placePowerups_pres (computeAdjacents (setMines b mps)) sr tr).2 i _ hB2
          rw [hc2] at hcf
          injection hcf with hcf
          rw [← hcf]
          exact ⟨p1, p2, p8⟩
        · rw [if_neg hen] at hcf
          rw [hB2] at hcf
          injection hcf with hcf
          rw [← hcf]
          exact ⟨rfl, rfl, rfl⟩

theorem coordFaithful_setMines {b : Board} (hcf : coordFaithful b)
    (mps : List Nat) : coordFaithful (setMines b mps) := by
  obtain ⟨hr, hc, -, -, -, hl, hcells⟩ := setMines_pres mps b
  obtain ⟨hlen, hprops⟩ := hcf
  constructor
  · rw [hl, hr, hc]
    exact hlen
  · intro i c2 hi2
    have hilen : i < b.cells.length := by
      have := getElem?_some_lt hi2
      rwa [hl] at this
    rcases hbi : b.cells[i]? with _ | c
    · rw [List.getElem?_eq_getElem hilen] at hbi
      cases hbi
    · obtain ⟨c2x, hc2x, p1, p2, p3, -⟩ := hcells i c hbi
      rw [hi2] at hc2x
      injection hc2x with hc2x
      subst hc2x
      obtain ⟨q1, q2, q3⟩ := hprops i c hbi
      rw [hc]
      exact ⟨p1.trans q1, p2.trans q2, p3.trans q3⟩

theorem create_rows (rows cols mc : Int) (pc : Option PowerupConfig) :
    (create rows cols mc pc).rows = rows := rfl

theorem create_cols (rows cols mc : Int) (pc : Option PowerupConfig) :
    (create rows cols mc pc).cols = cols := rfl

/-! ### Claim C3 -/

/-- Claim C3, confirmed.  For every grid created by `create`, every mine
count, every power-up configuration, every randomness oracle and every
in-bounds safe click `(r, c)`: after `placeMines`, the clicked cell and all
of its existing neighbours (up to 8, fewer at edges and corners) have
`isMine = false`. -/
theorem claim_C3 (rows cols mineCount : Int) (pc : Option PowerupConfig)
    (randFn : Nat → Nat) (sr : Nat → Bool) (tr : Nat → Nat) (r c : Int)
    (hr0 : 0 ≤ r) (hr1 : r < rows) (hc0 : 0 ≤ c) (hc1 : c < cols) :
    (∀ cell : Cell,
      getCell (placeMines (create rows cols mineCount pc) r c randFn sr tr) r c =
        some cell → cell.isMine = false) ∧
    (∀ cell ∈ getAdjacentCells
        (placeMines (create rows cols mineCount pc) r c randFn sr tr) r c,
      cell.isMine = false) := by
  have hcols : (0 : Int) < cols := lt_of_le_of_lt hc0 hc1
  have hrows : (0 : Int) < rows := lt_of_le_of_lt hr0 hr1
  obtain ⟨mps, hsafe, heq⟩ :=
    placeMines_shape (b := create rows cols mineCount pc) rfl r c randFn sr tr
  have hlay := pipeline_layout (create rows cols mineCount pc) mps sr tr
  obtain ⟨sr1, sc1, -, -, -, sl1, -⟩ := setMines_pres mps (create rows cols mineCount pc)
  have hFr : (placeMines (create rows cols mineCount pc) r c randFn sr tr).rows = rows := by
    rw [heq, hlay.1, sr1, create_rows]
  have hFc : (placeMines (create rows cols mineCount pc) r c randFn sr tr).cols = cols := by
    rw [heq, hlay.2.1, sc1, create_cols]
  constructor
  · intro cell hget
    have hb := getCell_eq_cells hget
    rw [hFc, heq] at hb
    have hqlt : (r * cols + c).toNat < rows.toNat * cols.toNat :=
      coord_pos_lt hr0 hr1 hc0 hc1
    rcases hb0q : (create rows cols mineCount pc).cells[(r * cols + c).toNat]? with _ | cq
    · exfalso
      rw [List.getElem?_eq_getElem (by rw [create_cells_length]; exact hqlt)] at hb0q
      cases hb0q
    · have hqm : cq.isMine = false :=
        (create_cells_props rows cols mineCount pc _ cq hb0q).2.1
      have hpos : (0 : Int) ≤ r * cols + c :=
        add_nonneg (mul_nonneg hr0 (le_of_lt hcols)) hc0
      have hqcast : (Int.ofNat (r * cols + c).toNat) = r * cols + c :=
        Int.toNat_of_nonneg hpos
      have hqnot : (r * cols + c).toNat ∉ mps := by
        intro hqin
        have hfalse := hsafe _ hqin
        simp only [create_cols] at hfalse
        have htrue : ((r * cols + c) ::
            (getAdjacentCells (create rows cols mineCount pc) r c).map
              (fun c0 => (c0.index : Int))).contains
              (Int.ofNat (r * cols + c).toNat) = true :=
          List.elem_eq_true_of_mem (List.mem_cons.mpr (Or.inl hqcast))
        rw [hfalse] at htrue
        cases htrue
      exact pipeline_nonmine sr tr hb0q hqm hqnot cell hb
  · intro cell hmem
    unfold getAdjacentCells at hmem
    obtain ⟨d, hd, hg⟩ := List.mem_filterMap.mp hmem
    obtain ⟨ha0, ha1, hb0, hb1⟩ := getCell_some_bounds hg
    rw [hFr] at ha1
    rw [hFc] at hb1
    have hg2 := getCell_eq_cells hg
    rw [hFc, heq] at hg2
    have hqlt : ((r + d.1) * cols + (c + d.2)).toNat < rows.toNat * cols.toNat :=
      coord_pos_lt ha0 ha1 hb0 hb1
    rcases hb0q : (create rows cols mineCount pc).cells[((r + d.1) * cols + (c + d.2)).toNat]?
      with _ | cq
    · exfalso
      rw [List.getElem?_eq_getElem (by rw [create_cells_length]; exact hqlt)] at hb0q
      cases hb0q
    · have props := create_cells_props rows cols mineCount pc _ cq hb0q
      have hgc0 : getCell (create rows cols mineCount pc) (r + d.1) (c + d.2) = some cq := by
        unfold getCell
        rw [if_neg]
        · rw [create_cols]
          exact hb0q
        · push_neg
          refine ⟨ha0, ?_, hb0, ?_⟩
          · rw [create_rows]
            exact ha1
          · rw [create_cols]
            exact hb1
      have hmem0 : cq ∈ getAdjacentCells (create rows cols mineCount pc) r c := by
        unfold getAdjacentCells
        exact List.mem_filterMap.mpr ⟨d, hd, hgc0⟩
      have hqnot : ((r + d.1) * cols + (c + d.2)).toNat ∉ mps := by
        intro hqin
        have hfalse := hsafe _ hqin
        simp only [create_cols] at hfalse
        have htrue : ((r * cols + c) ::
            (getAdjacentCells (create rows cols mineCount pc) r c).map
              (fun c0 => (c0.index : Int))).contains
              (Int.ofNat ((r + d.1) * cols + (c + d.2)).toNat) = true :=
          List.elem_eq_true_of_mem (List.mem_cons_of_mem _
            (List.mem_map.mpr ⟨cq, hmem0, by rw [props.1]; rfl⟩))
        rw [hfalse] at htrue
        cases htrue
      exact pipeline_nonmine sr tr hb0q props.2.1 hqnot cell hg2

/-- Witness for C3 at a concrete instance: a 3 by 3 board with one mine and
a centre click. -/
theorem claim_C3_witness :
    (∀ cell : Cell,
      getCell (placeMines (create 3 3 1 none) 1 1 zeroFn noRoll zeroFn) 1 1 =
        some cell → cell.isMine = false) ∧
    (∀ cell ∈ getAdjacentCells
        (placeMines (create 3 3 1 none) 1 1 zeroFn noRoll zeroFn) 1 1,
      cell.isMine = false) :=
  claim_C3 3 3 1 none zeroFn noRoll zeroFn 1 1 (by decide) (by decide)
    (by decide) (by decide)

/-! ### Claim C6 -/

/-- Claim C6, confirmed.  After `placeMines` completes on a freshly created
board, every non-mine cell's `adjacentMines` equals the brute-force count of
its neighbouring cells (up to 8, located by coordinates) that are mines. -/
theorem claim_C6 (rows cols mineCount : Int) (pc : Option PowerupConfig)
    (randFn : Nat → Nat) (sr : Nat → Bool) (tr : Nat → Nat) (r c : Int) :
    ∀ cell ∈ (placeMines (create rows cols mineCount pc) r c randFn sr tr).cells,
      cell.isMine = false →
      cell.adjacentMines =
        bruteMineCount (placeMines (create rows cols mineCount pc) r c randFn sr tr)
          cell.row cell.col := by
  obtain ⟨mps, -, heq⟩ :=
    placeMines_shape (b := create rows cols mineCount pc) rfl r c randFn sr tr
  rw [heq]
  intro cell hmem hcm
  obtain ⟨i, hi⟩ := List.mem_iff_getElem?.mp hmem
  obtain ⟨c1, hc1, hc1m, hrow, hcol, hadj⟩ :=
    pipeline_cells (create rows cols mineCount pc) mps sr tr i cell hi hcm
  rw [hadj, hrow, hcol]
  have hlay := pipeline_layout (create rows cols mineCount pc) mps sr tr
  rw [bruteMineCount_eq_of_layout hlay]
  exact codeCount_eq_brute
    (coordFaithful_setMines (coordFaithful_create rows cols mineCount pc) mps)
    c1.row c1.col

/-- Witness for C6 at a concrete instance: on a 3 by 3 board with one mine
placed after a corner click, the centre cell is a non-mine cell and its
count matches the brute-force count. -/
theorem claim_C6_witness :
    ∃ cell ∈ (placeMines (create 3 3 1 none) 0 0 zeroFn noRoll zeroFn).cells,
      cell.isMine = false ∧
      cell.adjacentMines =
        bruteMineCount (placeMines (create 3 3 1 none) 0 0 zeroFn noRoll zeroFn)
          cell.row cell.col := by
  refine ⟨mkCell 1 1 4 false false false false 1 none, ?_, ?_, ?_⟩
  · decide
  · decide
  · exact claim_C6 3 3 1 none zeroFn noRoll zeroFn 0 0
      (mkCell 1 1 4 false false false false 1 none) (by decide) (by decide)

/-! ### Claim C2 -/

theorem chordLoop_char (ps : List Nat) : ∀ (b : Board) (acc : RevealResult),
    (chordLoop b ps acc).2.revealed =
      acc.revealed ++ (chordResults b ps).flatMap (fun rr => rr.revealed) ∧
    (chordLoop b ps acc).2.hitMine =
      (acc.hitMine || (chordResults b ps).any (fun rr => rr.hitMine)) ∧
    (chordLoop b ps acc).2.explodedCell =
      (chordResults b ps).foldl
        (fun a rr => if rr.hitMine = true then rr.explodedCell else a)
        acc.explodedCell ∧
    (chordLoop b ps acc).2.powerup =
      (chordResults b ps).foldl
        (fun a rr => if rr.powerup.isSome = true then rr.powerup else a)
        acc.powerup := by
  induction ps with
  | nil =>
    intro b acc
    simp [chordLoop, chordResults]
  | cons p rest ih =>
    intro b acc
    unfold chordLoop chordResults
    by_cases hp : p < b.cells.length
    · rw [dif_pos hp, dif_pos hp]
      by_cases hok : b.cells[p].isRevealed = false ∧ b.cells[p].isFlagged = false
      · rw [if_pos hok, if_pos hok]
        obtain ⟨ih1, ih2, ih3, ih4⟩ :=
          ih (revealCell b b.cells[p].row b.cells[p].col).1
            { revealed := acc.revealed ++
                (revealCell b b.cells[p].row b.cells[p].col).2.revealed
              hitMine := acc.hitMine ||
                (revealCell b b.cells[p].row b.cells[p].col).2.hitMine
              explodedCell :=
                if (revealCell b b.cells[p].row b.cells[p].col).2.hitMine = true
                then (revealCell b b.cells[p].row b.cells[p].col).2.explodedCell
                else acc.explodedCell
              powerup :=
                if (revealCell b b.cells[p].row b.cells[p].col).2.powerup.isSome = true
                then (revealCell b b.cells[p].row b.cells[p].col).2.powerup
                else acc.powerup }
        refine ⟨?_, ?_, ?_, ?_⟩
        · rw [ih1]
          simp [List.append_assoc]
        · rw [ih2]
          simp [Bool.or_assoc]
        · rw [ih3]
          rfl
        · rw [ih4]
          rfl
      · rw [if_neg hok, if_neg hok]
        exact ih b acc
    · rw [dif_neg hp, dif_neg hp]
      exact ih b acc

theorem revealCell_hitMine_some (b : Board) (row col : Int)
    (h : (revealCell b row col).2.hitMine = true) :
    (revealCell b row col).2.explodedCell.isSome = true := by
  rcases hgc : getCell b row col with _ | c
  · rw [revealCell.eq_def, hgc] at h
    simp [emptyResult] at h
  · rw [revealCell.eq_def, hgc] at h ⊢
    by_cases hrf : c.isRevealed = true ∨ c.isFlagged = true
    · simp [if_pos hrf, emptyResult] at h
    · simp only [if_neg hrf] at h ⊢
      obtain ⟨p, hp, -⟩ := (revealLoop_surface b _ _).1 h
      rw [hp]
      rfl

theorem chordResults_hitMine_some (ps : List Nat) : ∀ (b : Board),
    ∀ rr ∈ chordResults b ps, rr.hitMine = true → rr.explodedCell.isSome = true := by
  induction ps with
  | nil =>
    intro b rr hrr
    simp [chordResults] at hrr
  | cons p rest ih =>
    intro b rr hrr hm
    unfold chordResults at hrr
    by_cases hp : p < b.cells.length
    · rw [dif_pos hp] at hrr
      by_cases hok : b.cells[p].isRevealed = false ∧ b.cells[p].isFlagged = false
      · rw [if_pos hok] at hrr
        simp only [List.mem_cons] at hrr
        rcases hrr with heq | htail
        · rw [heq] at hm ⊢
          exact revealCell_hitMine_some b _ _ hm
        · exact ih _ rr htail hm
      · rw [if_neg hok] at hrr
        exact ih b rr hrr hm
    · rw [dif_neg hp] at hrr
      exact ih b rr hrr hm

theorem foldl_exploded_gen (l : List RevealResult)
    (hinv : ∀ rr ∈ l, rr.hitMine = true → rr.explodedCell.isSome = true) :
    ∀ a : Option Nat,
      l.foldl (fun a rr => if rr.hitMine = true then rr.explodedCell else a) a =
      (l.map (fun rr => if rr.hitMine = true then rr.explodedCell else none)).foldl
        overwriteO a := by
  induction l with
  | nil =>
    intro a
    rfl
  | cons rr rest ih =>
    intro a
    rw [List.map_cons, List.foldl_cons, List.foldl_cons]
    have hstep : (if rr.hitMine = true then rr.explodedCell else a) =
        overwriteO a (if rr.hitMine = true then rr.explodedCell else none) := by
      by_cases hm : rr.hitMine = true
      · rw [if_pos hm, if_pos hm]
        obtain ⟨x, hx⟩ :=
          Option.isSome_iff_exists.mp (hinv rr (List.mem_cons_self rr rest) hm)
        rw [hx]
        rfl
      · rw [if_neg hm, if_neg hm]
        rfl
    rw [hstep]
    exact ih (fun r hr hm => hinv r (List.mem_cons_of_mem _ hr) hm) _

theorem foldl_powerup_gen (l : List RevealResult) :
    ∀ a : Option String,
      l.foldl (fun a rr => if rr.powerup.isSome = true then rr.powerup else a) a =
      (l.map (fun rr => rr.powerup)).foldl overwriteO a := by
  induction l with
  | nil =>
    intro a
    rfl
  | cons rr rest ih =>
    intro a
    rw [List.map_cons, List.foldl_cons, List.foldl_cons]
    have hstep : (if rr.powerup.isSome = true then rr.powerup else a) =
        overwriteO a rr.powerup := by
      rcases hx : rr.powerup with _ | x
      · simp [overwriteO]
      · simp [overwriteO]
    rw [hstep]
    exact ih _

/-- Claim C2, corrected.  When a chord proceeds, every eligible neighbour
is processed by `revealCell` even after a mine or power-up has been
encountered — the merged `revealed` list is the concatenation of all
per-call results and `hitMine` is their disjunction — but the surfaced
`explodedCell` and `powerup` are those of the LAST mine hit and the LAST
power-up encountered across the neighbour calls (each later hit overwrites
the earlier one), not the first as claimed. -/
theorem claim_C2 (b : Board) (row col : Int) (cell : Cell)
    (hgc : getCell b row col = some cell)
    (hrev : cell.isRevealed = true)
    (hadj : cell.adjacentMines ≠ 0)
    (hflag : ((getAdjacentCells b row col).filter (fun c => c.isFlagged)).length =
      cell.adjacentMines) :
    (chordReveal b row col).2.revealed =
      (chordResults b (adjacentPositions b row col)).flatMap (fun rr => rr.revealed) ∧
    (chordReveal b row col).2.hitMine =
      (chordResults b (adjacentPositions b row col)).any (fun rr => rr.hitMine) ∧
    (chordReveal b row col).2.explodedCell =
      lastSome ((chordResults b (adjacentPositions b row col)).map
        (fun rr => if rr.hitMine = true then rr.explodedCell else none)) ∧
    (chordReveal b row col).2.powerup =
      lastSome ((chordResults b (adjacentPositions b row col)).map
        (fun rr => rr.powerup)) := by
  have hcond : ¬(cell.isRevealed = false ∨ cell.adjacentMines = 0) := by
    rw [not_or]
    exact ⟨by rw [hrev]; simp, hadj⟩
  have hcr : chordReveal b row col =
      chordLoop b (adjacentPositions b row col) emptyResult := by
    rw [chordReveal.eq_def, hgc]
    simp only [if_neg hcond, if_neg (not_not_intro hflag)]
  obtain ⟨h1, h2, h3, h4⟩ := chordLoop_char (adjacentPositions b row col) b emptyResult
  rw [hcr]
  refine ⟨?_, ?_, ?_, ?_⟩
  · rw [h1]
    simp [emptyResult]
  · rw [h2]
    simp [emptyResult]
  · rw [h3, foldl_exploded_gen _ (chordResults_hitMine_some _ b) _]
    rfl
  · rw [h4, foldl_powerup_gen]
    rfl

/-- Counterexample to C2 as stated: chording the centre of `chordBoard`
hits the mines at positions 0 and 2 in that order, yet the merged result
surfaces `explodedCell = some 2` — the LAST mine hit — while the first mine
hit across the neighbour calls was position 0. -/
theorem claim_C2_counterexample :
    (chordReveal chordBoard 1 1).2.hitMine = true ∧
    (chordReveal chordBoard 1 1).2.explodedCell = some 2 ∧
    firstSome ((chordResults chordBoard (adjacentPositions chordBoard 1 1)).map
      (fun rr => if rr.hitMine = true then rr.explodedCell else none)) = some 0 ∧
    (chordReveal chordBoard 1 1).2.explodedCell ≠
      firstSome ((chordResults chordBoard (adjacentPositions chordBoard 1 1)).map
        (fun rr => if rr.hitMine = true then rr.explodedCell else none)) := by
  refine ⟨?_, ?_, ?_, ?_⟩ <;>
    simp +decide [chordReveal, chordLoop, chordResults, revealCell, getCell,
      getAdjacentCells, adjacentPositions, directions, chordBoard, mkCell,
      emptyResult, firstSome, modifyCell, pushOK, revealLoop_nil,
      revealLoop_oob, revealLoop_skip, revealLoop_mine, revealLoop_powerup,
      revealLoop_zero, revealLoop_num]

/-- Witness for the amended C2 at a concrete instance: the chord of the
centre of `chordBoard`. -/
theorem claim_C2_witness :
    (chordReveal chordBoard 1 1).2.revealed =
      (chordResults chordBoard (adjacentPositions chordBoard 1 1)).flatMap
        (fun rr => rr.revealed) ∧
    (chordReveal chordBoard 1 1).2.hitMine =
      (chordResults chordBoard (adjacentPositions chordBoard 1 1)).any
        (fun rr => rr.hitMine) ∧
    (chordReveal chordBoard 1 1).2.explodedCell =
      lastSome ((chordResults chordBoard (adjacentPositions chordBoard 1 1)).map
        (fun rr => if rr.hitMine = true then rr.explodedCell else none)) ∧
    (chordReveal chordBoard 1 1).2.powerup =
      lastSome ((chordResults chordBoard (adjacentPositions chordBoard 1 1)).map
        (fun rr => rr.powerup)) :=
  claim_C2 chordBoard 1 1 (mkCell 1 1 4 false true false false 2)
    (by decide) (by decide) (by decide) (by decide)

/-! ### Claim C7 -/

/-- Claim C7, confirmed.  In a playing session with mines placed, when a
reveal hits a mine: with the shield active the shield is consumed, the
exploded cell is converted to unrevealed-and-flagged, and the session stays
playing; with no shield the session transitions to lost. -/
theorem claim_C7 (s : Session) (row col : Int) (randFn : Nat → Nat)
    (sr : Nat → Bool) (tr : Nat → Nat)
    (hplay : s.gameState = GState.playing)
    (hmp : s.board.minesPlaced = true)
    (cell : Cell) (hgc : getCell s.board row col = some cell)
    (hrev : cell.isRevealed = false) (hfl : cell.isFlagged = false)
    (hhit : (revealCell s.board row col).2.hitMine = true) :
    (s.shieldActive = true →
      (handleReveal s row col randFn sr tr).gameState = GState.playing ∧
      (handleReveal s row col randFn sr tr).shieldActive = false ∧
      ∃ p : Nat, (revealCell s.board row col).2.explodedCell = some p ∧
        ∃ c2 : Cell,
          (handleReveal s row col randFn sr tr).board.cells[p]? = some c2 ∧
          c2.isRevealed = false ∧ c2.isFlagged = true) ∧
    (s.shieldActive = false →
      (handleReveal s row col randFn sr tr).gameState = GState.lost) := by
  have hg1 : ¬(GState.playing = GState.won ∨ GState.playing = GState.lost) := by
    decide
  have hg2 : ¬(cell.isRevealed = true ∨ cell.isFlagged = true) := by
    rw [hrev, hfl]
    decide
  have hg3 : ¬(true = false) := by decide
  have hrc : revealCell s.board row col =
      revealLoop s.board [(row * s.board.cols + col).toNat] [] := by
    rw [revealCell.eq_def, hgc]
    simp only [if_neg hg2]
  have hhit2 : (revealLoop s.board [(row * s.board.cols + col).toNat] []).2.hitMine =
      true := by
    rw [← hrc]
    exact hhit
  have hsurf := (revealLoop_surface s.board [(row * s.board.cols + col).toNat] []).1
    hhit2
  obtain ⟨p, hpe, -, ⟨cm, hcm, -, -⟩, -⟩ := hsurf
  constructor
  · intro hsh
    rw [handleReveal.eq_def, hplay, hgc]
    simp only [if_neg hg1, if_neg hg2, hmp, if_neg hg3, hrc]
    rw [if_pos hhit2, if_pos hsh]
    refine ⟨rfl, rfl, p, hpe, ?_⟩
    simp only [hpe]
    exact ⟨_, modifyCell_getElem?_self hcm _, rfl, rfl⟩
  · intro hsh
    have hg4 : ¬(false = true) := by decide
    have hsh2 : ¬(s.shieldActive = true) := by
      rw [hsh]
      exact hg4
    rw [handleReveal.eq_def, hplay, hgc]
    simp only [if_neg hg1, if_neg hg2, hmp, if_neg hg3, hrc]
    rw [if_pos hhit2, if_neg hsh2, gameOver.eq_def]
    simp only [if_neg hg4]

/-- Witness for C7 at a concrete instance: revealing the only cell of a
1 by 1 mine board, once with the shield active and once without. -/
theorem claim_C7_witness :
    (handleReveal shieldSession 0 0 zeroFn noRoll zeroFn).gameState =
      GState.playing ∧
    (handleReveal shieldSession 0 0 zeroFn noRoll zeroFn).shieldActive = false ∧
    (∃ p : Nat, (revealCell mineBoard 0 0).2.explodedCell = some p ∧
      ∃ c2 : Cell,
        (handleReveal shieldSession 0 0 zeroFn noRoll zeroFn).board.cells[p]? =
          some c2 ∧
        c2.isRevealed = false ∧ c2.isFlagged = true) ∧
    (handleReveal bareSession 0 0 zeroFn noRoll zeroFn).gameState =
      GState.lost := by
  have hhit : (revealCell mineBoard 0 0).2.hitMine = true := by
    simp +decide [revealCell, getCell, mineBoard, mkCell, revealLoop_mine]
  have h1 := claim_C7 shieldSession 0 0 zeroFn noRoll zeroFn rfl
    (by decide) (mkCell 0 0 0 true) (by decide) (by decide) (by decide) hhit
  have h2 := claim_C7 bareSession 0 0 zeroFn noRoll zeroFn rfl
    (by decide) (mkCell 0 0 0 true) (by decide) (by decide) (by decide) hhit
  exact ⟨(h1.1 rfl).1, (h1.1 rfl).2.1, (h1.1 rfl).2.2, h2.2 rfl⟩

/-! ### Claim C4: cascade machinery -/

theorem adjacentPositions_eq_of_geom {b b2 : Board} (hr : b2.rows = b.rows)
    (hc : b2.cols = b.cols) (hl : b2.cells.length = b.cells.length)
    (row col : Int) :
    adjacentPositions b2 row col = adjacentPositions b row col := by
  unfold adjacentPositions
  simp only [hr, hc, hl]

theorem BoardEvol_back {b bx : Board} (he : BoardEvol b bx) {q : Nat} {ax : Cell}
    (h : bx.cells[q]? = some ax) :
    ∃ a : Cell, b.cells[q]? = some a ∧ CellEvol a ax := by
  have hlen : q < b.cells.length := by
    have := getElem?_some_lt h
    rwa [he.2.2.2.2.2.1] at this
  rcases hq : b.cells[q]? with _ | a
  · rw [List.getElem?_eq_getElem hlen] at hq
    cases hq
  · obtain ⟨a2, ha2, hce⟩ := he.2.2.2.2.2.2 q a hq
    rw [h] at ha2
    injection ha2 with ha2
    subst ha2
    exact ⟨a, rfl, hce⟩

theorem CellEvol_unrevealed_back {a ax : Cell} (h : CellEvol a ax)
    (hr : ax.isRevealed = false) : a.isRevealed = false := by
  by_cases hx : a.isRevealed = true
  · rw [h.2.2.2.2.2.2.2.2.2.2 hx] at hr
    cases hr
  · simpa using hx

theorem noPowerup_modifyReveal {b : Board}
    (h : ∀ c ∈ b.cells, c.powerup = none) (p : Nat) :
    ∀ c ∈ (modifyCell b p (fun x => { x with isRevealed := true })).cells,
      c.powerup = none := by
  intro c hc
  rcases hq : b.cells[p]? with _ | cp
  · have hid : modifyCell b p (fun x => { x with isRevealed := true }) = b := by
      unfold modifyCell
      rw [hq]
    rw [hid] at hc
    exact h c hc
  · have hmc : modifyCell b p (fun x => { x with isRevealed := true }) =
        { b with cells := b.cells.set p { cp with isRevealed := true } } := by
      unfold modifyCell
      rw [hq]
    rw [hmc] at hc
    rcases List.mem_or_eq_of_mem_set hc with h1 | h2
    · exact h c h1
    · subst h2
      exact h cp (mem_of_getElem?_some hq)

theorem stackNonmine_modifyReveal {b : Board} {l : List Nat}
    (h : ∀ p ∈ l, ∀ c : Cell, b.cells[p]? = some c → c.isMine = false)
    (p0 : Nat) :
    ∀ p ∈ l, ∀ c : Cell,
      (modifyCell b p0 (fun x => { x with isRevealed := true })).cells[p]? = some c →
      c.isMine = false := by
  intro p hp c hc
  by_cases hpe : p = p0
  · subst hpe
    rcases hq : b.cells[p]? with _ | cp
    · have hid : modifyCell b p (fun x => { x with isRevealed := true }) = b := by
        unfold modifyCell
        rw [hq]
      rw [hid, hq] at hc
      cases hc
    · rw [modifyCell_getElem?_self hq _] at hc
      injection hc with hc
      rw [← hc]
      exact h p hp cp hq
  · rw [modifyCell_getElem?_other hpe] at hc
    exact h p hp c hc

/-- Soundness of the cascade with respect to `Reach`: every position the
loop reveals is reachable from any set of reachable seeds. -/
theorem revealLoop_sound (b0 : Board) (t : Nat) (b : Board) (stack acc : List Nat) :
    BoardEvol b0 b →
    (∀ p ∈ stack, Reach b0 t p) →
    (∀ q ∈ acc, Reach b0 t q) →
    ∀ q ∈ (revealLoop b stack acc).2.revealed, Reach b0 t q := by
  induction b, stack, acc using revealLoop.induct with
  | case1 b acc =>
    intro _ _ hacc
    rw [revealLoop_nil]
    exact hacc
  | case2 b acc p rest hp hrf ih =>
    intro hevol hstack hacc
    rw [revealLoop_skip hp hrf]
    exact ih hevol (fun px hpx => hstack px (List.mem_cons_of_mem _ hpx)) hacc
  | case3 b acc p rest hp hrf hm =>
    intro hevol hstack hacc
    simp only [not_or, Bool.not_eq_true] at hrf
    rw [revealLoop_mine hp hrf.1 hrf.2 hm]
    intro q hq
    rcases List.mem_append.mp hq with h | h
    · exact hacc q h
    · have hqp : q = p := by simpa using h
      subst hqp
      exact hstack q (List.mem_cons_self _ _)
  | case4 b acc p rest hp hrf hm hpw =>
    intro hevol hstack hacc
    simp only [not_or, Bool.not_eq_true] at hrf
    rw [revealLoop_powerup hp hrf.1 hrf.2 (by simpa using hm) hpw]
    intro q hq
    rcases List.mem_append.mp hq with h | h
    · exact hacc q h
    · have hqp : q = p := by simpa using h
      subst hqp
      exact hstack q (List.mem_cons_self _ _)
  | case5 b acc p rest hp hrf bx accx hm hpw hz pushes ih =>
    intro hevol hstack hacc
    simp only [not_or, Bool.not_eq_true] at hrf
    rw [revealLoop_zero hp hrf.1 hrf.2 (by simpa using hm) (by simpa using hpw) hz]
    have hbxdef : bx = modifyCell b p (fun x => { x with isRevealed := true }) := rfl
    have hpushdef : pushes = (adjacentPositions bx b.cells[p].row b.cells[p].col).filter
        (pushOK bx) := rfl
    have hstep : BoardEvol b bx := by
      rw [hbxdef]
      exact modifyCell_reveal_evol b p
    have hevolx : BoardEvol b0 bx := BoardEvol_trans hevol hstep
    have hreachp : Reach b0 t p := hstack p (List.mem_cons_self _ _)
    have hpe : b.cells[p]? = some b.cells[p] := List.getElem?_eq_getElem hp
    obtain ⟨cp0, hcp0, hcpe⟩ := BoardEvol_back hevol hpe
    have hz0 : cp0.adjacentMines = 0 := by
      rw [← hcpe.2.2.2.2.2.2.1]
      exact hz
    have hm0 : cp0.isMine = false := by
      rw [← hcpe.2.2.2.1]
      simpa using hm
    have hpush : ∀ q ∈ pushes, Reach b0 t q := by
      intro q hq
      rw [hpushdef] at hq
      have hqadj := List.mem_of_mem_filter hq
      have hqok := List.of_mem_filter hq
      obtain ⟨ax, hax, har, haf, ham⟩ := pushOK_spec hqok
      obtain ⟨a0, ha0, hae⟩ := BoardEvol_back hevolx hax
      have hadj0 : q ∈ adjacentPositions b0 cp0.row cp0.col := by
        rw [← adjacentPositions_eq_of_geom hevolx.1 hevolx.2.1 hevolx.2.2.2.2.2.1,
          ← hcpe.1, ← hcpe.2.1]
        exact hqadj
      have hrev0 : a0.isRevealed = false := CellEvol_unrevealed_back hae har
      have haf0 : a0.isFlagged = false := by
        rw [← hae.2.2.2.2.1]
        exact haf
      have ham0 : a0.isMine = false := by
        rw [← hae.2.2.2.1]
        exact ham
      exact Reach.step hreachp hcp0 hz0 hm0 hadj0 ha0 hrev0 haf0 ham0
    refine ih hevolx ?_ ?_
    · intro px hpx
      rcases List.mem_append.mp hpx with h | h
      · exact hpush px (List.mem_reverse.mp h)
      · exact hstack px (List.mem_cons_of_mem _ h)
    · intro q hq
      rcases List.mem_append.mp hq with h | h
      · exact hacc q h
      · have hqp : q = p := by simpa using h
        subst hqp
        exact hreachp
  | case6 b acc p rest hp hrf bx accx hm hpw hz ih =>
    intro hevol hstack hacc
    simp only [not_or, Bool.not_eq_true] at hrf
    rw [revealLoop_num hp hrf.1 hrf.2 (by simpa using hm) (by simpa using hpw) hz]
    have hbxdef : bx = modifyCell b p (fun x => { x with isRevealed := true }) := rfl
    have hstep : BoardEvol b bx := by
      rw [hbxdef]
      exact modifyCell_reveal_evol b p
    refine ih (BoardEvol_trans hevol hstep)
      (fun px hpx => hstack px (List.mem_cons_of_mem _ hpx)) ?_
    intro q hq
    rcases List.mem_append.mp hq with h | h
    · exact hacc q h
    · have hqp : q = p := by simpa using h
      subst hqp
      exact hstack q (List.mem_cons_self _ _)
  | case7 b acc p rest hp ih =>
    intro hevol hstack hacc
    rw [revealLoop_oob hp]
    exact ih hevol (fun px hpx => hstack px (List.mem_cons_of_mem _ hpx)) hacc

/-- With no mines on the work list and no power-ups on the board, the loop
never aborts: every unflagged position on the work list ends up revealed. -/
theorem revealLoop_stack_revealed (b : Board) (stack acc : List Nat) :
    (∀ p ∈ stack, ∀ c : Cell, b.cells[p]? = some c → c.isMine = false) →
    (∀ c ∈ b.cells, c.powerup = none) →
    ∀ p ∈ stack, ∀ c : Cell, b.cells[p]? = some c → c.isFlagged = false →
      ∃ c2 : Cell, (revealLoop b stack acc).1.cells[p]? = some c2 ∧
        c2.isRevealed = true := by
  induction b, stack, acc using revealLoop.induct with
  | case1 b acc =>
    intro _ _ p hp
    simp at hp
  | case2 b acc p rest hp hrf ih =>
    intro hnm hnp px hpx c hc hcf
    rw [revealLoop_skip hp hrf]
    by_cases hpp : px = p
    · subst hpp
      have hceq : c = b.cells[px] := by
        rw [List.getElem?_eq_getElem hp] at hc
        injection hc with h
        exact h.symm
      rcases hrf with hr | hf
      · obtain ⟨c2, hc2, hev⟩ := (revealLoop_evol b rest acc).2.2.2.2.2.2 px c hc
        exact ⟨c2, hc2, hev.2.2.2.2.2.2.2.2.2.2 (by rw [hceq]; exact hr)⟩
      · rw [← hceq] at hf
        rw [hcf] at hf
        cases hf
    · exact ih (fun q hq => hnm q (List.mem_cons_of_mem _ hq)) hnp px
        (Or.resolve_left (List.mem_cons.mp hpx) hpp) c hc hcf
  | case3 b acc p rest hp hrf hm =>
    intro hnm _ px _ c _ _
    exfalso
    have := hnm p (List.mem_cons_self _ _) b.cells[p] (List.getElem?_eq_getElem hp)
    rw [this] at hm
    cases hm
  | case4 b acc p rest hp hrf hm hpw =>
    intro _ hnp px _ c _ _
    exfalso
    have := hnp b.cells[p] (mem_of_getElem?_some (List.getElem?_eq_getElem hp))
    rw [this] at hpw
    cases hpw
  | case5 b acc p rest hp hrf bx accx hm hpw hz pushes ih =>
    intro hnm hnp px hpx c hc hcf
    simp only [not_or, Bool.not_eq_true] at hrf
    rw [revealLoop_zero hp hrf.1 hrf.2 (by simpa using hm) (by simpa using hpw) hz]
    have hbxdef : bx = modifyCell b p (fun x => { x with isRevealed := true }) := rfl
    have hpushdef : pushes = (adjacentPositions bx b.cells[p].row b.cells[p].col).filter
        (pushOK bx) := rfl
    have hpe : b.cells[p]? = some b.cells[p] := List.getElem?_eq_getElem hp
    have hbxp : bx.cells[p]? = some { b.cells[p] with isRevealed := true } := by
      rw [hbxdef]
      exact modifyCell_getElem?_self hpe _
    have hnpx : ∀ c2 ∈ bx.cells, c2.powerup = none := by
      rw [hbxdef]
      exact noPowerup_modifyReveal hnp p
    have hnmx : ∀ q ∈ pushes.reverse ++ rest, ∀ cq : Cell,
        bx.cells[q]? = some cq → cq.isMine = false := by
      intro q hq cq hcq
      rcases List.mem_append.mp hq with hq1 | hq2
      · have hqp := List.mem_reverse.mp hq1
        rw [hpushdef] at hqp
        have hqok := List.of_mem_filter hqp
        obtain ⟨a, ha, -, -, ham⟩ := pushOK_spec hqok
        rw [ha] at hcq
        injection hcq with h
        rw [← h]
        exact ham
      · rw [hbxdef] at hcq
        exact stackNonmine_modifyReveal
          (fun q2 hq2 => hnm q2 (List.mem_cons_of_mem _ hq2)) p q hq2 cq hcq
    by_cases hpp : px = p
    · subst hpp
      obtain ⟨c2, hc2, hev⟩ :=
        (revealLoop_evol bx (pushes.reverse ++ rest) accx).2.2.2.2.2.2 px _ hbxp
      exact ⟨c2, hc2, hev.2.2.2.2.2.2.2.2.2.2 rfl⟩
    · have htail : px ∈ rest := Or.resolve_left (List.mem_cons.mp hpx) hpp
      refine ih hnmx hnpx px (List.mem_append_right _ htail) c ?_ hcf
      rw [hbxdef, modifyCell_getElem?_other hpp]
      exact hc
  | case6 b acc p rest hp hrf bx accx hm hpw hz ih =>
    intro hnm hnp px hpx c hc hcf
    simp only [not_or, Bool.not_eq_true] at hrf
    rw [revealLoop_num hp hrf.1 hrf.2 (by simpa using hm) (by simpa using hpw) hz]
    have hbxdef : bx = modifyCell b p (fun x => { x with isRevealed := true }) := rfl
    have hpe : b.cells[p]? = some b.cells[p] := List.getElem?_eq_getElem hp
    have hbxp : bx.cells[p]? = some { b.cells[p] with isRevealed := true } := by
      rw [hbxdef]
      exact modifyCell_getElem?_self hpe _
    have hnpx : ∀ c2 ∈ bx.cells, c2.powerup = none := by
      rw [hbxdef]
      exact noPowerup_modifyReveal hnp p
    have hnmx : ∀ q ∈ rest, ∀ cq : Cell, bx.cells[q]? = some cq →
        cq.isMine = false := by
      intro q hq cq hcq
      rw [hbxdef] at hcq
      exact stackNonmine_modifyReveal
        (fun q2 hq2 => hnm q2 (List.mem_cons_of_mem _ hq2)) p q hq cq hcq
    by_cases hpp : px = p
    · subst hpp
      obtain ⟨c2, hc2, hev⟩ := (revealLoop_evol bx rest accx).2.2.2.2.2.2 px _ hbxp
      exact ⟨c2, hc2, hev.2.2.2.2.2.2.2.2.2.2 rfl⟩
    · have htail : px ∈ rest := Or.resolve_left (List.mem_cons.mp hpx) hpp
      refine ih hnmx hnpx px htail c ?_ hcf
      rw [hbxdef, modifyCell_getElem?_other hpp]
      exact hc
  | case7 b acc p rest hp ih =>
    intro hnm hnp px hpx c hc hcf
    rw [revealLoop_oob hp]
    by_cases hpp : px = p
    · subst hpp
      exact absurd (getElem?_some_lt hc) hp
    · exact ih (fun q hq => hnm q (List.mem_cons_of_mem _ hq)) hnp px
        (Or.resolve_left (List.mem_cons.mp hpx) hpp) c hc hcf

/-- Closure of the finished cascade: starting from a state whose pending
obligations all sit on the work list, every cell revealed by the call
(unrevealed at the origin `b0`) that reads zero has all its unflagged
non-mine neighbours revealed when the loop finishes. -/
theorem revealLoop_closed (b0 b : Board) (stack acc : List Nat) :
    (∀ p ∈ stack, ∀ c : Cell, b.cells[p]? = some c → c.isMine = false) →
    (∀ c ∈ b.cells, c.powerup = none) →
    (∀ (p : Nat) (c0 c : Cell), b0.cells[p]? = some c0 → c0.isRevealed = false →
      b.cells[p]? = some c → c.isRevealed = true → c.adjacentMines = 0 →
      c.isMine = false →
      ∀ q ∈ adjacentPositions b c.row c.col, ∀ a : Cell, b.cells[q]? = some a →
        a.isFlagged = false → a.isMine = false →
        (a.isRevealed = true ∨ q ∈ stack)) →
    ∀ (p : Nat) (c0 c : Cell), b0.cells[p]? = some c0 → c0.isRevealed = false →
      (revealLoop b stack acc).1.cells[p]? = some c → c.isRevealed = true →
      c.adjacentMines = 0 → c.isMine = false →
      ∀ q ∈ adjacentPositions (revealLoop b stack acc).1 c.row c.col,
        ∀ a : Cell, (revealLoop b stack acc).1.cells[q]? = some a →
          a.isFlagged = false → a.isMine = false → a.isRevealed = true := by
  induction b, stack, acc using revealLoop.induct with
  | case1 b acc =>
    intro _ _ hinv p c0 c h0 h0r hc hcr hcz hcm q hq a ha haf ham
    rw [revealLoop_nil] at hc hq ha
    rcases hinv p c0 c h0 h0r hc hcr hcz hcm q hq a ha haf ham with hrev | hqs
    · exact hrev
    · simp at hqs
  | case2 b acc p rest hp hrf ih =>
    intro hnm hnp hinv
    rw [revealLoop_skip hp hrf]
    refine ih (fun q hq => hnm q (List.mem_cons_of_mem _ hq)) hnp ?_
    intro p0 c0 c h0 h0r hc hcr hcz hcm q hq a ha haf ham
    rcases hinv p0 c0 c h0 h0r hc hcr hcz hcm q hq a ha haf ham with hrev | hqs
    · exact Or.inl hrev
    · rcases List.mem_cons.mp hqs with he | ht
      · subst he
        have haeq : a = b.cells[q] := by
          rw [List.getElem?_eq_getElem hp] at ha
          injection ha with h
          exact h.symm
        rcases hrf with hr | hf
        · exact Or.inl (by rw [haeq]; exact hr)
        · rw [haeq, hf] at haf
          cases haf
      · exact Or.inr ht
  | case3 b acc p rest hp hrf hm =>
    intro hnm _ _
    exfalso
    have := hnm p (List.mem_cons_self _ _) b.cells[p] (List.getElem?_eq_getElem hp)
    rw [this] at hm
    cases hm
  | case4 b acc p rest hp hrf hm hpw =>
    intro _ hnp _
    exfalso
    have := hnp b.cells[p] (mem_of_getElem?_some (List.getElem?_eq_getElem hp))
    rw [this] at hpw
    cases hpw
  | case5 b acc p rest hp hrf bx accx hm hpw hz pushes ih =>
    intro hnm hnp hinv
    simp only [not_or, Bool.not_eq_true] at hrf
    rw [revealLoop_zero hp hrf.1 hrf.2 (by simpa using hm) (by simpa using hpw) hz]
    have hbxdef : bx = modifyCell b p (fun x => { x with isRevealed := true }) := rfl
    have hpushdef : pushes = (adjacentPositions bx b.cells[p].row b.cells[p].col).filter
        (pushOK bx) := rfl
    have hpe : b.cells[p]? = some b.cells[p] := List.getElem?_eq_getElem hp
    have hbxp : bx.cells[p]? = some { b.cells[p] with isRevealed := true } := by
      rw [hbxdef]
      exact modifyCell_getElem?_self hpe _
    have hgeom := modifyCell_fields b p (fun x => { x with isRevealed := true })
    have hbr : bx.rows = b.rows := by
      rw [hbxdef]
      exact hgeom.1
    have hbc : bx.cols = b.cols := by
      rw [hbxdef]
      exact hgeom.2.1
    have hbl : bx.cells.length = b.cells.length := by
      rw [hbxdef]
      exact hgeom.2.2.2.2.2
    have hnpx : ∀ c2 ∈ bx.cells, c2.powerup = none := by
      rw [hbxdef]
      exact noPowerup_modifyReveal hnp p
    have hnmx : ∀ q ∈ pushes.reverse ++ rest, ∀ cq : Cell,
        bx.cells[q]? = some cq → cq.isMine = false := by
      intro q hq cq hcq
      rcases List.mem_append.mp hq with hq1 | hq2
      · have hqp := List.mem_reverse.mp hq1
        rw [hpushdef] at hqp
        have hqok := List.of_mem_filter hqp
        obtain ⟨a, ha, -, -, ham⟩ := pushOK_spec hqok
        rw [ha] at hcq
        injection hcq with h
        rw [← h]
        exact ham
      · rw [hbxdef] at hcq
        exact stackNonmine_modifyReveal
          (fun q2 hq2 => hnm q2 (List.mem_cons_of_mem _ hq2)) p q hq2 cq hcq
    refine ih hnmx hnpx ?_
    intro p0 c0 c h0 h0r hc hcr hcz hcm q hq a ha haf ham
    by_cases hpp : p0 = p
    · subst hpp
      rw [hbxp] at hc
      injection hc with hce
      subst hce
      by_cases har : a.isRevealed = true
      · exact Or.inl har
      · right
        apply List.mem_append_left
        apply List.mem_reverse.mpr
        rw [hpushdef]
        refine List.mem_filter.mpr ⟨hq, ?_⟩
        unfold pushOK
        rw [ha]
        simp only [Bool.not_eq_true] at har
        simp [har, haf, ham]
    · have hcb : b.cells[p0]? = some c := by
        rw [hbxdef, modifyCell_getElem?_other hpp] at hc
        exact hc
      by_cases hqp : q = p
      · subst hqp
        rw [hbxp] at ha
        injection ha with hae
        rw [← hae]
        exact Or.inl rfl
      · have hab : b.cells[q]? = some a := by
          rw [hbxdef, modifyCell_getElem?_other hqp] at ha
          exact ha
        have hqb : q ∈ adjacentPositions b c.row c.col := by
          rw [adjacentPositions_eq_of_geom hbr hbc hbl] at hq
          exact hq
        rcases hinv p0 c0 c h0 h0r hcb hcr hcz hcm q hqb a hab haf ham with hrev | hqs
        · exact Or.inl hrev
        · rcases List.mem_cons.mp hqs with he | ht
          · exact absurd he hqp
          · exact Or.inr (List.mem_append_right _ ht)
  | case6 b acc p rest hp hrf bx accx hm hpw hz ih =>
    intro hnm hnp hinv
    simp only [not_or, Bool.not_eq_true] at hrf
    rw [revealLoop_num hp hrf.1 hrf.2 (by simpa using hm) (by simpa using hpw) hz]
    have hbxdef : bx = modifyCell b p (fun x => { x with isRevealed := true }) := rfl
    have hpe : b.cells[p]? = some b.cells[p] := List.getElem?_eq_getElem hp
    have hbxp : bx.cells[p]? = some { b.cells[p] with isRevealed := true } := by
      rw [hbxdef]
      exact modifyCell_getElem?_self hpe _
    have hgeom := modifyCell_fields b p (fun x => { x with isRevealed := true })
    have hbr : bx.rows = b.rows := by
      rw [hbxdef]
      exact hgeom.1
    have hbc : bx.cols = b.cols := by
      rw [hbxdef]
      exact hgeom.2.1
    have hbl : bx.cells.length = b.cells.length := by
      rw [hbxdef]
      exact hgeom.2.2.2.2.2
    have hnpx : ∀ c2 ∈ bx.cells, c2.powerup = none := by
      rw [hbxdef]
      exact noPowerup_modifyReveal hnp p
    have hnmx : ∀ q ∈ rest, ∀ cq : Cell, bx.cells[q]? = some cq →
        cq.isMine = false := by
      intro q hq cq hcq
      rw [hbxdef] at hcq
      exact stackNonmine_modifyReveal
        (fun q2 hq2 => hnm q2 (List.mem_cons_of_mem _ hq2)) p q hq cq hcq
    refine ih hnmx hnpx ?_
    intro p0 c0 c h0 h0r hc hcr hcz hcm q hq a ha haf ham
    by_cases hpp : p0 = p
    · subst hpp
      rw [hbxp] at hc
      injection hc with hce
      subst hce
      exact absurd hcz hz
    · have hcb : b.cells[p0]? = some c := by
        rw [hbxdef, modifyCell_getElem?_other hpp] at hc
        exact hc
      by_cases hqp : q = p
      · subst hqp
        rw [hbxp] at ha
        injection ha with hae
        rw [← hae]
        exact Or.inl rfl
      · have hab : b.cells[q]? = some a := by
          rw [hbxdef, modifyCell_getElem?_other hqp] at ha
          exact ha
        have hqb : q ∈ adjacentPositions b c.row c.col := by
          rw [adjacentPositions_eq_of_geom hbr hbc hbl] at hq
          exact hq
        rcases hinv p0 c0 c h0 h0r hcb hcr hcz hcm q hqb a hab haf ham with hrev | hqs
        · exact Or.inl hrev
        · rcases List.mem_cons.mp hqs with he | ht
          · exact absurd he hqp
          · exact Or.inr ht
  | case7 b acc p rest hp ih =>
    intro hnm hnp hinv
    rw [revealLoop_oob hp]
    refine ih (fun q hq => hnm q (List.mem_cons_of_mem _ hq)) hnp ?_
    intro p0 c0 c h0 h0r hc hcr hcz hcm q hq a ha haf ham
    rcases hinv p0 c0 c h0 h0r hc hcr hcz hcm q hq a ha haf ham with hrev | hqs
    · exact Or.inl hrev
    · rcases List.mem_cons.mp hqs with he | ht
      · subst he
        exact absurd (getElem?_some_lt ha) hp
      · exact Or.inr ht

/-- Claim C4, corrected.  On a board with no power-ups, revealing an
in-bounds, unrevealed, unflagged, non-mine cell whose count is zero reveals
exactly the connected zero-adjacency component together with its bordering
numbered cells — membership in the returned `revealed` list coincides with
the `Reach` closure of the clicked position — and each cell appears exactly
once; termination holds because `revealLoop` is a total function.  The
claim's unconditional form is false: a power-up ANYWHERE in the component
aborts the cascade mid-way (see the counterexample), so the no-power-up
hypothesis is required. -/
theorem claim_C4 (b : Board) (row col : Int) (cell : Cell)
    (hgc : getCell b row col = some cell)
    (hrev : cell.isRevealed = false) (hfl : cell.isFlagged = false)
    (hmine : cell.isMine = false) (hzero : cell.adjacentMines = 0)
    (hnp : ∀ c ∈ b.cells, c.powerup = none) :
    (∀ q : Nat, q ∈ (revealCell b row col).2.revealed ↔
      Reach b ((row * b.cols + col).toNat) q) ∧
    (revealCell b row col).2.revealed.Nodup := by
  have hrc := revealCell_run hgc hrev hfl
  have ht : b.cells[(row * b.cols + col).toNat]? = some cell := getCell_eq_cells hgc
  set t := (row * b.cols + col).toNat with htdef
  have hnm1 : ∀ p ∈ [t], ∀ c : Cell, b.cells[p]? = some c → c.isMine = false := by
    intro p hp c hc
    have hpt : p = t := by simpa using hp
    subst hpt
    rw [ht] at hc
    injection hc with h
    rw [← h]
    exact hmine
  have hevolF := revealLoop_evol b [t] []
  have hfinal : ∀ q2 : Nat, Reach b t q2 →
      (∃ c0 : Cell, b.cells[q2]? = some c0 ∧ c0.isRevealed = false) ∧
      (∃ c2 : Cell, (revealLoop b [t] []).1.cells[q2]? = some c2 ∧
        c2.isRevealed = true) := by
    intro q2 hq2
    induction hq2 with
    | base =>
      refine ⟨⟨cell, ht, hrev⟩, ?_⟩
      exact revealLoop_stack_revealed b [t] [] hnm1 hnp t (by simp) cell ht hfl
    | step hreachp hcp hcz hcm hqmem hqa hqrev hqfl hqm ih =>
      refine ⟨⟨_, hqa, hqrev⟩, ?_⟩
      obtain ⟨⟨cp0, hcp0, hcp0r⟩, ⟨cp2, hcp2, hcp2r⟩⟩ := ih
      rw [hcp] at hcp0
      injection hcp0 with he
      subst he
      obtain ⟨cp2x, hcp2x, hce⟩ := hevolF.2.2.2.2.2.2 _ _ hcp
      rw [hcp2] at hcp2x
      injection hcp2x with he2
      subst he2
      obtain ⟨a2, ha2, hae⟩ := hevolF.2.2.2.2.2.2 _ _ hqa
      have hclosed := revealLoop_closed b b [t] [] hnm1 hnp
        (by
          intro p0 c0 cc h0 h0r hcc hccr h1 h2 q0 h3 a0 h4 h5 h6
          rw [h0] at hcc
          injection hcc with he3
          rw [← he3, h0r] at hccr
          cases hccr)
      have hcz2 : cp2.adjacentMines = 0 := by
        rw [hce.2.2.2.2.2.2.1]
        exact hcz
      have hcm2 : cp2.isMine = false := by
        rw [hce.2.2.2.1]
        exact hcm
      refine ⟨a2, ha2, ?_⟩
      refine hclosed _ _ cp2 hcp hcp0r hcp2 hcp2r hcz2 hcm2 _ ?_ a2 ha2 ?_ ?_
      · rw [adjacentPositions_eq_of_geom hevolF.1 hevolF.2.1 hevolF.2.2.2.2.2.1,
          hce.1, hce.2.1]
        exact hqmem
      · rw [hae.2.2.2.2.1]
        exact hqfl
      · rw [hae.2.2.2.1]
        exact hqm
  constructor
  · intro q
    constructor
    · intro hq
      rw [hrc] at hq
      refine revealLoop_sound b t b [t] [] (BoardEvol_refl b) ?_ ?_ q hq
      · intro p hp
        have hpt : p = t := by simpa using hp
        subst hpt
        exact Reach.base
      · intro q2 hq2
        simp at hq2
    · intro hreach
      rw [hrc]
      obtain ⟨⟨c0q, hc0q, hc0qr⟩, ⟨c2q, hc2q, hc2qr⟩⟩ := hfinal q hreach
      exact (revealLoop_revealed_char b [t] [] q).mpr
        (Or.inr ⟨c0q, c2q, hc0q, hc2q, hc0qr, hc2qr⟩)
  · rw [hrc]
    refine revealLoop_revealed_nodup b [t] [] ?_ List.nodup_nil
    intro q hq
    simp at hq

/-- Counterexample to C4 as stated: on `cascadeBoard` (mines placed, no
flag or revelation anywhere, clicked cell (0,0) has a zero count) the
position 2 belongs to the connected zero-adjacency component of the click,
yet the call leaves it unrevealed: the cascade dies when it reveals the
power-up cell 5 and abandons the rest of the work list. -/
theorem claim_C4_counterexample :
    getCell cascadeBoard 0 0 = some (mkCell 0 0 0) ∧
    (mkCell 0 0 0).isRevealed = false ∧ (mkCell 0 0 0).isFlagged = false ∧
    (mkCell 0 0 0).adjacentMines = 0 ∧ cascadeBoard.minesPlaced = true ∧
    Reach cascadeBoard ((0 * cascadeBoard.cols + 0).toNat) 2 ∧
    2 ∉ (revealCell cascadeBoard 0 0).2.revealed ∧
    (∃ c2 : Cell, (revealCell cascadeBoard 0 0).1.cells[2]? = some c2 ∧
      c2.isRevealed = false) := by
  refine ⟨by decide, by decide, by decide, by decide, by decide, ?_, ?_, ?_⟩
  · have h01 : Reach cascadeBoard 0 1 :=
      Reach.step Reach.base
        (by decide : cascadeBoard.cells[0]? = some (mkCell 0 0 0))
        (by decide) (by decide) (by decide)
        (by decide : cascadeBoard.cells[1]? = some (mkCell 0 1 1))
        (by decide) (by decide) (by decide)
    have h02 : Reach cascadeBoard 0 2 :=
      Reach.step h01
        (by decide : cascadeBoard.cells[1]? = some (mkCell 0 1 1))
        (by decide) (by decide) (by decide)
        (by decide : cascadeBoard.cells[2]? = some (mkCell 0 2 2))
        (by decide) (by decide) (by decide)
    exact h02
  · simp +decide [revealCell, getCell, adjacentPositions, directions,
      cascadeBoard, mkCell, modifyCell, pushOK, revealLoop_nil, revealLoop_oob,
      revealLoop_skip, revealLoop_mine, revealLoop_powerup, revealLoop_zero,
      revealLoop_num]
  · simp +decide [revealCell, getCell, adjacentPositions, directions,
      cascadeBoard, mkCell, modifyCell, pushOK, revealLoop_nil, revealLoop_oob,
      revealLoop_skip, revealLoop_mine, revealLoop_powerup, revealLoop_zero,
      revealLoop_num]

/-- Witness for the amended C4 at a concrete instance: flooding the blank
2 by 2 board from its corner. -/
theorem claim_C4_witness :
    (3 ∈ (revealCell blankBoard 0 0).2.revealed ↔
      Reach blankBoard ((0 * blankBoard.cols + 0).toNat) 3) ∧
    (revealCell blankBoard 0 0).2.revealed.Nodup := by
  have h := claim_C4 blankBoard 0 0 (mkCell 0 0 0) (by decide) (by decide)
    (by decide) (by decide) (by decide) (by decide)
  exact ⟨h.1 3, h.2⟩

end Minesweeper
